import Mathlib

/- Verification of the pyquiz matrix module (src/pyquiz/expr/matrix.py).
   Matrices are embedded as lists of rows of exact rational scalars; results of
   the rewrite-dispatch rules (reduce / Inapplicable / ValueError) are embedded
   as the `Res` type, and Python's in-place mutation of the private working
   copy inside `row_reduce` is modelled by explicit state passing (and, for the
   frame property, by an explicit store of row objects). -/

namespace PyQuiz

/-- The entry list of a matrix expression: the `args` of `Expr("matrix", rows)`. -/
abbrev Mat : Type := List (List ℚ)

/-- Entry access `rows[i][j]` (0-indexed), totalized with junk value 0 out of range. -/
def entry (A : Mat) (i j : ℕ) : ℚ := (A.getD i []).getD j 0

/-- Shape predicate: `A` is an `m × n` matrix (m rows, all rows of length n). -/
def isMat (A : Mat) (m n : ℕ) : Prop := A.length = m ∧ ∀ r ∈ A, r.length = n

/-- `nrows(e)` from the source: `len(e.args)`. -/
def nrowsF (A : Mat) : ℕ := A.length

/-- `ncols(e)` from the source: `len(e.args[0])`. -/
def ncolsF (A : Mat) : ℕ := (A.headD []).length

/-- An operand of a generic operator: a matrix expression, or a non-matrix
    operand (a scalar, or an opaque symbolic expression) whose head is not
    "matrix". -/
inductive PExpr : Type
  | mat (rows : Mat)
  | scalar (q : ℚ)
  | sym (s : String)
deriving DecidableEq, Repr

/-- Result of a downvalue rule: a reduced value, the `Inapplicable` deferral
    signal, or a hard error (`ValueError` and friends) with its message. -/
inductive Res (α : Type) : Type
  | ok (a : α)
  | defer
  | err (msg : String)
deriving DecidableEq, Repr

/-- The list-of-rows matrix reinterpreted as a Mathlib matrix of a given shape. -/
def toMatrix (A : Mat) (m n : ℕ) : Matrix (Fin m) (Fin n) ℚ :=
  Matrix.of fun i j => entry A i j

/-- `identity_matrix(n)` from the source. -/
def identity_matrix (n : ℕ) : Mat :=
  (List.range n).map fun i => (List.range n).map fun j => if i = j then (1 : ℚ) else 0

/-- The recursive inner function `expand` of `det`: cofactor expansion along
    the first column; `rows[:i] + rows[i+1:]` is `eraseIdx i` and `row[1:]` is
    `drop 1`.  The source recurses on the list of rows, whose length drops by
    exactly one at each call, so the recursion is replayed structurally on the
    row count. -/
def expandAux : ℕ → Mat → ℚ
  | 0, _ => 0
  | 1, rows => entry rows 0 0
  | m + 2, rows =>
    ∑ i ∈ Finset.range (m + 2),
      (-1 : ℚ) ^ i * entry rows i 0 * expandAux (m + 1) ((rows.eraseIdx i).map (List.drop 1))

/-- `expand(rows)` of the source (`det`'s cofactor expansion). -/
def expand (rows : Mat) : ℚ := expandAux rows.length rows

/-- The body of the `det` downvalue applied to a matrix operand: the square
    check, then `expand`. -/
def detM (A : Mat) : Except String ℚ :=
  if nrowsF A ≠ ncolsF A then .error "det expecting square matrix"
  else .ok (expand A)

/-- The registered `det` rule on a generic operand (`Inapplicable` when the
    head is not "matrix"). -/
def detRule (e : PExpr) : Res ℚ :=
  match e with
  | .mat rows =>
    match detM rows with
    | .ok v => .ok v
    | .error m => .err m
  | _ => .defer

/-- The `matrix(*rows)` constructor with its validation. -/
def mkMatrix (rows : Mat) : Except String Mat :=
  if rows.length = 0 then .error "We require matrices to have at least one row and column."
  else if rows.any (fun r => r.length ≠ ncolsF rows) then
    .error "Not all rows in the matrix have the same length."
  else .ok rows

/-- The cofactor submatrix `rows2` inside `adj`: delete row i0 and column j0. -/
def cofRows (rows : Mat) (i0 j0 : ℕ) : Mat :=
  (rows.eraseIdx i0).map fun r => r.eraseIdx j0

/-- `C(i0, j0)` inside `adj`: `det(matrix(*rows2))`, including the constructor's
    validation (which fails when `rows2` is empty, i.e. for a 1×1 input). -/
def cof (rows : Mat) (i0 j0 : ℕ) : Except String ℚ :=
  (mkMatrix (cofRows rows i0 j0)).bind detM

/-- The body of the `adj` downvalue applied to a matrix operand: entry (i,j)
    is `(-1)^(i+j) * C(j, i)`. -/
def adjM (rows : Mat) : Except String Mat :=
  if rows.length ≠ (rows.headD []).length then .error "expecting square matrix"
  else
    (List.range rows.length).mapM fun i =>
      (List.range rows.length).mapM fun j =>
        (cof rows j i).map fun c => (-1 : ℚ) ^ (i + j) * c

/-- The value the adjugate computation produces when no constructor error
    occurs (shown below to agree with `adjM` whenever n is at least 2). -/
def adjF (rows : Mat) : Mat :=
  (List.range rows.length).map fun i =>
    (List.range rows.length).map fun j =>
      (-1 : ℚ) ^ (i + j) * expand (cofRows rows j i)

/-- The triple loop of `reduce_matmul` (the source reads entries through
    1-indexed `Part` access, which is 0-indexed `entry` here). -/
def matmulF (A B : Mat) : Mat :=
  (List.range (nrowsF A)).map fun i =>
    (List.range (ncolsF B)).map fun j =>
      ∑ k ∈ Finset.range (ncolsF A), entry A i k * entry B k j

/-- The `MatTimes` downvalue `reduce_matmul`, with its shape check. -/
def reduce_matmul (A B : PExpr) : Res Mat :=
  match A, B with
  | .mat a, .mat b =>
    if ncolsF a ≠ nrowsF b then
      .err "Number of columns of first argument does not equal number of rows of second argument"
    else .ok (matmulF a b)
  | _, _ => .defer

/-- Entrywise scalar multiple as produced by `rule_scalar_multiplication`
    (there, `rest` is the product of the remaining scalar factors). -/
def scalarMulF (c : ℚ) (A : Mat) : Mat := A.map fun r => r.map fun x => c * x

/-- A Python value used as an index into a `Part` expression: an int, a
    symbolic `Expr` value, or any other non-int non-Expr value (for example a
    float or a bool). -/
inductive Idx : Type
  | int (n : ℤ)
  | sym
  | other
deriving DecidableEq, Repr

/-- The `Part` downvalue for a single index, `rule_part_vector`.  The source
    defers when the head is not "matrix" or the index is an `Expr`; a
    remaining non-int index is a `ValueError`, as are a non-vector operand and
    an out-of-range index. -/
def rule_part_vector (e : PExpr) (idx : Idx) : Res ℚ :=
  match e, idx with
  | .mat rows, .int n =>
    if ncolsF rows ≠ 1 then .err "Need two indices to index a matrix, not one."
    else if ¬ (1 ≤ n ∧ n ≤ (nrowsF rows : ℤ)) then .err "Index is out of bounds for vector."
    else .ok (entry rows (n - 1).toNat 0)
  | .mat _, .sym => .defer
  | .mat _, .other => .err "Expecting integer for index"
  | _, _ => .defer

/-- The `Part` downvalue for two indices, `rule_part_matrix`: defers when the
    head is not "matrix" or either index is an `Expr`; then each index must be
    an int (`ValueError` otherwise) and in range. -/
def rule_part_matrix (e : PExpr) (idx1 idx2 : Idx) : Res ℚ :=
  match e with
  | .mat rows =>
    match idx1, idx2 with
    | .sym, _ => .defer
    | _, .sym => .defer
    | .other, _ => .err "Expecting integer for first index"
    | .int _, .other => .err "Expecting integer for second index"
    | .int n1, .int n2 =>
      if ¬ (1 ≤ n1 ∧ n1 ≤ (nrowsF rows : ℤ)) then
        .err "First index is out of bounds for matrix."
      else if ¬ (1 ≤ n2 ∧ n2 ≤ (ncolsF rows : ℤ)) then
        .err "Second index is out of bounds for matrix."
      else .ok (entry rows (n1 - 1).toNat (n2 - 1).toNat)
  | _ => .defer

/-- `rows(e)`: the rows of the matrix, each wrapped by `vector(*row)` as a
    column vector (a list of singleton rows). -/
def rowsF (A : Mat) : List Mat := A.map fun r => r.map fun v => [v]

/-- `transpose(e)` via `zip(*e.args)` (on a rectangular matrix, column j of
    the zip is the list of entries `r[j]`). -/
def transposeF (A : Mat) : Mat :=
  (List.range (ncolsF A)).map fun j => A.map fun r => r.getD j 0

/-- `matrix_with_rows(*rows)`: vertical block concatenation with its
    validation (at least one argument, all matrices, all with the same number
    of columns). -/
def matrix_with_rows (rs : List PExpr) : Except String Mat :=
  if rs.length = 0 then .error "Matrices must have at least one row."
  else if ¬ rs.all (fun r => match r with | .mat _ => true | _ => false) then
    .error "Not all the arguments are matrices"
  else
    let mats := rs.map fun r => match r with | .mat m => m | _ => []
    if ¬ mats.all (fun m => ncolsF (mats.headD []) = ncolsF m) then
      .error "Not all the matrices have the same number of columns."
    else .ok mats.flatten

/-- Elementwise sum of the first matched pair in `rule_matrix_addition`. -/
def addMat (A B : Mat) : Mat := List.zipWith (List.zipWith (· + ·)) A B

/-- The inner loop `for j in range(i + 1, len(args))` of `rule_matrix_addition`,
    over the explicit list of indices `js`; `none` means the loop fell through
    (no matrix operand at any `j`). -/
def innerScan (args : List PExpr) (i : ℕ) (Ai : Mat) : List ℕ → Option (Res (List PExpr))
  | [] => none
  | j :: js =>
    match args.getD j (.scalar 0) with
    | .mat Aj =>
      some (if nrowsF Ai ≠ nrowsF Aj then
          .err "The added matrices have different numbers of rows."
        else if ncolsF Ai ≠ ncolsF Aj then
          .err "The added matrices have different numbers of columns."
        else
          .ok (args.take i ++ [.mat (addMat Ai Aj)] ++
            ((args.drop (i + 1)).take (j - (i + 1))) ++ args.drop (j + 1)))
    | _ => innerScan args i Ai js

/-- The outer loop `for i in range(len(args) - 1)` of `rule_matrix_addition`. -/
def outerScan (args : List PExpr) : List ℕ → Res (List PExpr)
  | [] => .defer
  | i :: is =>
    match args.getD i (.scalar 0) with
    | .mat Ai =>
      match innerScan args i Ai (List.range' (i + 1) (args.length - (i + 1))) with
      | some r => r
      | none => outerScan args is
    | _ => outerScan args is

/-- The `Plus` downvalue `rule_matrix_addition`; the result list is the new
    operand list of the returned `Plus` expression. -/
def rule_matrix_addition (args : List PExpr) : Res (List PExpr) :=
  outerScan args (List.range (args.length - 1))

/-- The binary exponentiation loop inside `reduce_matrix_inverse`.  The loop
    variable `i` starts at 1 and doubles each iteration while `i <= npos`, so
    the loop runs fewer than `npos + 1` times and that fuel is exact. -/
def powLoop (npos : ℕ) : ℕ → ℕ → Mat → Mat → Mat
  | 0, _, _, P => P
  | fuel + 1, i, B, P =>
    if i ≤ npos then
      powLoop npos fuel (i <<< 1) (matmulF B B)
        (if i &&& npos ≠ 0 then matmulF P B else P)
    else P

/-- `A ** |n|` as computed by `reduce_matrix_inverse`: `B := A`,
    `P := identity_matrix(nrows(A))`, then the squaring loop. -/
def matpowF (A : Mat) (npos : ℕ) : Mat :=
  powLoop npos (npos + 1) 1 A (identity_matrix (nrowsF A))

/-- Modelled from the spec: `frac` (defined in the arithmetic module, which is
    not under src/) builds the exact rational quotient and a zero denominator
    "must surface as a hard error (singular matrix)". -/
def frac (v d : ℚ) : Except String ℚ :=
  if d = 0 then .error "Division by a zero determinant: singular matrix"
  else .ok (v / d)

/-- The `Pow` downvalue `reduce_matrix_inverse` for an integer exponent:
    square check, squaring loop, and for a negative exponent
    `adj(P) / det(P)` entrywise (det first, then adj, then the divisions). -/
def reduce_matrix_inverse (A : PExpr) (n : ℤ) : Res Mat :=
  match A with
  | .mat rows =>
    if nrowsF rows ≠ ncolsF rows then
      if n < 0 then .err "Taking the inverse of a non-square matrix"
      else .err "Taking the power of a non-square matrix"
    else
      let P := matpowF rows n.natAbs
      if 0 ≤ n then .ok P
      else
        match detM P with
        | .error m => .err m
        | .ok d =>
          match adjM P with
          | .error m => .err m
          | .ok a =>
            match a.mapM (fun r => r.mapM (fun v => frac v d)) with
            | .error m => .err m
            | .ok rows2 => .ok rows2
  | _ => .defer

/-- The zero-row test `is_zero(i)` of `row_reduce`, over `range(cols)`. -/
def isZeroRow (cols : ℕ) (mat : Mat) (i : ℕ) : Bool :=
  (List.range cols).all fun k => entry mat i k == 0

/-- The elementary operation `R_i <-> R_j` (`swap`). -/
def swapF (mat : Mat) (i j : ℕ) : Mat :=
  let ri := mat.getD i []
  let rj := mat.getD j []
  (mat.set i rj).set j ri

/-- The elementary operation `c * R_i -> R_i` (`scale`): `mat[i][k] *= c`. -/
def scaleF (mat : Mat) (i : ℕ) (c : ℚ) : Mat :=
  mat.set i ((mat.getD i []).map fun v => v * c)

/-- The elementary operation `R_i + c * R_j -> R_i` (`replace`):
    `mat[i][k] += c * mat[j][k]`. -/
def replaceF (mat : Mat) (i j : ℕ) (c : ℚ) : Mat :=
  mat.set i (List.zipWith (fun a b => a + c * b) (mat.getD i []) (mat.getD j []))

/-- The initial bottom-up scan
    `last_nz = rows - 1; while last_nz >= 0 and is_zero(last_nz): last_nz -= 1`
    (`-1` when every row is zero); the argument counts the rows still to scan. -/
def lastNZscan (cols : ℕ) (mat : Mat) : ℕ → ℤ
  | 0 => -1
  | n + 1 => if isZeroRow cols mat n then lastNZscan cols mat n else n

/-- The pivot search `for k in range(i+1, last_nz+1): if mat[k][j] != 0`,
    returning the first hit. -/
def findNZ (mat : Mat) (j : ℕ) : List ℕ → Option ℕ
  | [] => none
  | k :: ks => if entry mat k j ≠ 0 then some k else findNZ mat j ks

/-- The elimination loop `for k in ks: if mat[k][j] != 0: replace(k, i, -mat[k][j])`
    (run below the pivot in the forward pass, above it in the backward pass). -/
def elimRows (i j : ℕ) : Mat → List ℕ → Mat
  | mat, [] => mat
  | mat, k :: ks =>
    elimRows i j (if entry mat k j ≠ 0 then replaceF mat k i (-entry mat k j) else mat) ks

/-- The forward elimination while-loop of `row_reduce` over the state
    `(mat, i, j, last_nz)`.  `j` strictly increases on every non-break
    iteration, so fuel `to_col` is exact starting from `j = 0`. -/
def rrLoop (rows cols to_col : ℕ) : ℕ → Mat → ℕ → ℕ → ℤ → Mat × ℤ
  | 0, mat, _, _, lnz => (mat, lnz)
  | fuel + 1, mat, i, j, lnz =>
    if i < rows ∧ j < to_col then
      if isZeroRow cols mat i ∧ lnz ≤ (i : ℤ) then (mat, lnz)
      else
        let s1 : Mat × ℤ :=
          if isZeroRow cols mat i then (swapF mat i lnz.toNat, lnz - 1) else (mat, lnz)
        let mat1 := s1.1
        let lnz1 := s1.2
        let mat2 :=
          if entry mat1 i j = 0 then
            match findNZ mat1 j (List.range' (i + 1) (lnz1 + 1 - (i + 1 : ℤ)).toNat) with
            | some k => swapF mat1 i k
            | none => mat1
          else mat1
        if entry mat2 i j = 0 then rrLoop rows cols to_col fuel mat2 i (j + 1) lnz1
        else
          let mat3 := if entry mat2 i j ≠ 1 then scaleF mat2 i (1 / entry mat2 i j) else mat2
          let mat4 := elimRows i j mat3 (List.range' (i + 1) (lnz1 + 1 - (i + 1 : ℤ)).toNat)
          rrLoop rows cols to_col fuel mat4 (i + 1) (j + 1) lnz1
    else (mat, lnz)

/-- The first nonzero column of row i among columns `0..to_col-1` — the
    `for j in range(to_col): if mat[i][j] != 0: ...; break` search of the
    backward pass. -/
def findPivCol (mat : Mat) (i : ℕ) : List ℕ → Option ℕ
  | [] => none
  | j :: js => if entry mat i j ≠ 0 then some j else findPivCol mat i js

/-- The backward pass `for i in range(last_nz, -1, -1)` of `row_reduce` (only
    when `rref=True`): for each row, eliminate above its first nonzero column. -/
def backLoop (to_col : ℕ) : Mat → List ℕ → Mat
  | mat, [] => mat
  | mat, i :: is =>
    backLoop to_col
      (match findPivCol mat i (List.range to_col) with
       | some j => elimRows i j mat (List.range i).reverse
       | none => mat) is

/-- `row_reduce(e, rref, to_col=to_col)`.  The working copy is the state
    threaded through `rrLoop`/`backLoop`; `to_col = none` is Python's `None`,
    and `steps_out` only accumulates the TeX trace without affecting the
    returned matrix, so it is not modelled here. -/
def row_reduce (e : Mat) (rref : Bool) (to_col : Option ℕ) : Mat :=
  let mat := e.map fun r => r.map fun v => v
  let rows := mat.length
  let cols := ncolsF mat
  let tc := min cols (to_col.getD cols)
  let res := rrLoop rows cols tc tc mat 0 0 (lastNZscan cols mat rows)
  if rref then backLoop tc res.1 (List.range (res.2 + 1).toNat).reverse else res.1

/-- `rank(e)`: row reduce to (non-reduced) echelon form and count the rows
    that are not entirely zero. -/
def rank (e : Mat) : ℕ :=
  (row_reduce e false none).countP fun r => ! r.all (fun v => v == 0)

/-- `nullity(e) = ncols(e) - rank(e)` (Python int subtraction, so over ℤ). -/
def nullity (e : Mat) : ℤ := (ncolsF e : ℤ) - rank e

/-- Written from the specification text for `det` (claim C2): base case n = 1
    returns the single entry; otherwise
    `det = Σ i in 0..n-1, (-1)^i * M[i][0] * det(M with row i and column 0 removed)`. -/
def detSpec : ℕ → Mat → ℚ
  | 0, _ => 0
  | 1, M => entry M 0 0
  | n + 2, M =>
    ∑ i ∈ Finset.range (n + 2),
      (-1 : ℚ) ^ i * entry M i 0 * detSpec (n + 1) ((M.eraseIdx i).map (List.drop 1))

/-- Written from the claim text for addition (claim C6): the position of the
    first matrix operand in scan order. -/
def firstMatIdx : List PExpr → Option ℕ
  | [] => none
  | .mat _ :: _ => some 0
  | _ :: rest => (firstMatIdx rest).map (· + 1)

/-- The rows of a matrix operand (junk value [] on non-matrix operands). -/
def getRows : PExpr → Mat
  | .mat rows => rows
  | _ => []

/-- Written from the claim text for addition (claim C6): the outcome on the
    pair of matrix operands at positions i and j — a hard error when their
    row or column counts differ, and otherwise the operand list with the pair
    replaced by its elementwise sum, all other summands kept in place. -/
def addResult (args : List PExpr) (i j : ℕ) : Res (List PExpr) :=
  let Ai := getRows (args.getD i (.scalar 0))
  let Aj := getRows (args.getD j (.scalar 0))
  if nrowsF Ai ≠ nrowsF Aj then .err "The added matrices have different numbers of rows."
  else if ncolsF Ai ≠ ncolsF Aj then
    .err "The added matrices have different numbers of columns."
  else .ok (args.take i ++ [.mat (addMat Ai Aj)] ++
    ((args.drop (i + 1)).take (j - (i + 1))) ++ args.drop (j + 1))

/-- Written from the claim text for addition (claim C6): the first pair of
    matrix operands in scan order is the first matrix operand together with
    the next matrix operand after it; with no such pair the rule defers. -/
def specAdd (args : List PExpr) : Res (List PExpr) :=
  match firstMatIdx args with
  | none => .defer
  | some i =>
    match firstMatIdx (args.drop (i + 1)) with
    | none => .defer
    | some d => addResult args i (i + 1 + d)

/-- The evaluation pipeline of the spec identity `A @ adj(A)`: first the `adj`
    downvalue is evaluated (it calls the matrix constructor on each cofactor
    submatrix), then the matrix product rule. -/
def adjProduct (A : Mat) : Res Mat :=
  match adjM A with
  | .error m => .err m
  | .ok a => reduce_matmul (.mat A) (.mat a)

/-- A store of Python list objects holding matrix rows; an address is an index
    into the store.  This models the object graph relevant to `row_reduce`:
    the input matrix and the private working copy both hold lists of row
    objects, and `scale`/`replace` mutate row objects in place. -/
abbrev Store : Type := List (List ℚ)

/-- Read the row object referenced by `mat[k]` (`IndexError` stops execution
    before any effect; reads on that path are modelled by the junk row `[]`). -/
def readAt (s : Store) (mat : List ℕ) (k : ℕ) : List ℚ :=
  match mat[k]? with
  | some a => s.getD a []
  | none => []

/-- Overwrite, in place, the row object referenced by `mat[k]` (`IndexError`
    raises before writing, modelled as no effect). -/
def writeAt (s : Store) (mat : List ℕ) (k : ℕ) (r : List ℚ) : Store :=
  match mat[k]? with
  | some a => s.set a r
  | none => s

/-- `mat[i][j]` through the store. -/
def entryH (s : Store) (mat : List ℕ) (i j : ℕ) : ℚ := (readAt s mat i).getD j 0

/-- `is_zero(i)` through the store. -/
def isZeroRowH (s : Store) (cols : ℕ) (mat : List ℕ) (i : ℕ) : Bool :=
  (List.range cols).all fun k => entryH s mat i k == 0

/-- `mat[i], mat[j] = mat[j], mat[i]`: swap the two references held by the
    local working list; no store effect. -/
def swapH (mat : List ℕ) (i j : ℕ) : List ℕ :=
  match mat[i]?, mat[j]? with
  | some a, some b => (mat.set i b).set j a
  | _, _ => mat

/-- `scale` through the store: mutates the row object `mat[i]`. -/
def scaleH (s : Store) (mat : List ℕ) (i : ℕ) (c : ℚ) : Store :=
  writeAt s mat i ((readAt s mat i).map fun v => v * c)

/-- `replace` through the store: mutates the row object `mat[i]`. -/
def replaceH (s : Store) (mat : List ℕ) (i j : ℕ) (c : ℚ) : Store :=
  writeAt s mat i (List.zipWith (fun a b => a + c * b) (readAt s mat i) (readAt s mat j))

/-- The initial `last_nz` scan through the store. -/
def lastNZscanH (s : Store) (cols : ℕ) (mat : List ℕ) : ℕ → ℤ
  | 0 => -1
  | n + 1 => if isZeroRowH s cols mat n then lastNZscanH s cols mat n else n

/-- The pivot search through the store. -/
def findNZH (s : Store) (mat : List ℕ) (j : ℕ) : List ℕ → Option ℕ
  | [] => none
  | k :: ks => if entryH s mat k j ≠ 0 then some k else findNZH s mat j ks

/-- The elimination loop through the store. -/
def elimRowsH (mat : List ℕ) (i j : ℕ) : Store → List ℕ → Store
  | s, [] => s
  | s, k :: ks =>
    elimRowsH mat i j
      (if entryH s mat k j ≠ 0 then replaceH s mat k i (-entryH s mat k j) else s) ks

/-- The forward elimination while-loop through the store: the state is the
    store, the working list of row addresses, and the cursors. -/
def rrLoopH (rows cols to_col : ℕ) : ℕ → Store → List ℕ → ℕ → ℕ → ℤ → Store × List ℕ × ℤ
  | 0, s, mat, _, _, lnz => (s, mat, lnz)
  | fuel + 1, s, mat, i, j, lnz =>
    if i < rows ∧ j < to_col then
      if isZeroRowH s cols mat i ∧ lnz ≤ (i : ℤ) then (s, mat, lnz)
      else
        let p : List ℕ × ℤ :=
          if isZeroRowH s cols mat i then (swapH mat i lnz.toNat, lnz - 1) else (mat, lnz)
        let mat1 := p.1
        let lnz1 := p.2
        let mat2 :=
          if entryH s mat1 i j = 0 then
            match findNZH s mat1 j (List.range' (i + 1) (lnz1 + 1 - (i + 1 : ℤ)).toNat) with
            | some k => swapH mat1 i k
            | none => mat1
          else mat1
        if entryH s mat2 i j = 0 then rrLoopH rows cols to_col fuel s mat2 i (j + 1) lnz1
        else
          let s3 := if entryH s mat2 i j ≠ 1 then scaleH s mat2 i (1 / entryH s mat2 i j) else s
          let s4 := elimRowsH mat2 i j s3 (List.range' (i + 1) (lnz1 + 1 - (i + 1 : ℤ)).toNat)
          rrLoopH rows cols to_col fuel s4 mat2 (i + 1) (j + 1) lnz1
    else (s, mat, lnz)

/-- The backward-pass pivot-column search through the store. -/
def findPivColH (s : Store) (mat : List ℕ) (i : ℕ) : List ℕ → Option ℕ
  | [] => none
  | j :: js => if entryH s mat i j ≠ 0 then some j else findPivColH s mat i js

/-- The backward pass through the store. -/
def backLoopH (to_col : ℕ) (mat : List ℕ) : Store → List ℕ → Store
  | s, [] => s
  | s, i :: is =>
    backLoopH to_col mat
      (match findPivColH s mat i (List.range to_col) with
       | some j => elimRowsH mat i j s (List.range i).reverse
       | none => s) is

/-- `row_reduce` at the store level.  The input matrix is the list `eAddrs` of
    its row-object addresses; the copy `[[v for v in row] for row in e.args]`
    allocates one fresh row object per input row and the working list `mat`
    holds those fresh addresses.  Returns the final store and the addresses of
    the rows of the returned matrix (`matrix(*mat)` aliases the working rows). -/
def row_reduceH (s0 : Store) (eAddrs : List ℕ) (rref : Bool) (to_col : Option ℕ) :
    Store × List ℕ :=
  let freshAddrs := List.range' s0.length eAddrs.length
  let s1 := s0 ++ eAddrs.map fun a => s0.getD a []
  let rows := freshAddrs.length
  let cols := (readAt s1 freshAddrs 0).length
  let tc := min cols (to_col.getD cols)
  let r1 := rrLoopH rows cols tc tc s1 freshAddrs 0 0 (lastNZscanH s1 cols freshAddrs rows)
  let s2 := if rref then backLoopH tc r1.2.1 r1.1 (List.range (r1.2.2 + 1).toNat).reverse
    else r1.1
  (s2, r1.2.1)

/-- Reduced row echelon shape of a matrix with `c` columns, rank `rk` and
    pivot-column function `p` (claim C7): pivots are 1, strictly to the right
    as rows descend, alone in their columns, with zero rows at the bottom. -/
structure RREFShape (M : Mat) (c : ℕ) (rk : ℕ) (p : ℕ → ℕ) : Prop where
  rk_le : rk ≤ M.length
  rect : ∀ r ∈ M, r.length = c
  p_lt : ∀ r, r < rk → p r < c
  p_mono : ∀ r s, r < s → s < rk → p r < p s
  pivot_one : ∀ r, r < rk → entry M r (p r) = 1
  left_zero : ∀ r, r < rk → ∀ j, j < p r → entry M r j = 0
  col_zero : ∀ r, r < rk → ∀ r', r' ≠ r → entry M r' (p r) = 0
  bottom_zero : ∀ r, rk ≤ r → ∀ j, entry M r j = 0

/-- A matrix is in reduced row echelon form. -/
def IsRREF (M : Mat) (c : ℕ) : Prop := ∃ rk p, RREFShape M c rk p

/-- Invariant of the forward elimination loop of `row_reduce` at state
    `(M, i, j, lnz)`: rows above `i` are finished pivot rows with pivot
    columns `p` strictly increasing and below `j`, rows strictly below `lnz`
    are zero, and the unprocessed block is zero to the left of column `j`. -/
structure FwdInv (M : Mat) (m c : ℕ) (i j : ℕ) (lnz : ℤ) (p : ℕ → ℕ) : Prop where
  len : M.length = m
  rect : ∀ r ∈ M, r.length = c
  lnz_lb : -1 ≤ lnz
  lnz_lt : lnz < (m : ℤ)
  i_le : (i : ℤ) ≤ lnz + 1
  j_le : j ≤ c
  zbelow : ∀ r : ℕ, lnz < (r : ℤ) → ∀ jj, entry M r jj = 0
  zblock : ∀ r : ℕ, i ≤ r → (r : ℤ) ≤ lnz → ∀ jj, jj < j → entry M r jj = 0
  p_lt : ∀ r, r < i → p r < j
  p_mono : ∀ r s, r < s → s < i → p r < p s
  pivot_one : ∀ r, r < i → entry M r (p r) = 1
  left_zero : ∀ r, r < i → ∀ jj, jj < p r → entry M r jj = 0
  below_zero : ∀ r, r < i → ∀ r', r < r' → entry M r' (p r) = 0

/-- What the forward pass of `row_reduce` establishes: (non-reduced) echelon
    form with `rk` nonzero rows, pivot columns `p`, and the final `last_nz`
    value `lnz` at least `rk - 1`. -/
structure EchOut (M : Mat) (m c : ℕ) (rk : ℕ) (p : ℕ → ℕ) (lnz : ℤ) : Prop where
  len : M.length = m
  rect : ∀ r ∈ M, r.length = c
  rk_le : rk ≤ m
  p_lt : ∀ r, r < rk → p r < c
  p_mono : ∀ r s, r < s → s < rk → p r < p s
  pivot_one : ∀ r, r < rk → entry M r (p r) = 1
  left_zero : ∀ r, r < rk → ∀ jj, jj < p r → entry M r jj = 0
  below_zero : ∀ r, r < rk → ∀ r', r < r' → entry M r' (p r) = 0
  bottom : ∀ r, rk ≤ r → ∀ jj, entry M r jj = 0
  lnz_ge : (rk : ℤ) ≤ lnz + 1
  lnz_lt : lnz < (m : ℤ)

/-- Invariant of the backward pass of `row_reduce` after the rows with index
    at least `t1` have been processed: echelon structure plus fully cleared
    pivot columns for the processed pivot rows. -/
structure BackInv (M : Mat) (m c : ℕ) (rk : ℕ) (p : ℕ → ℕ) (t1 : ℕ) : Prop where
  len : M.length = m
  rect : ∀ r ∈ M, r.length = c
  rk_le : rk ≤ m
  p_lt : ∀ r, r < rk → p r < c
  p_mono : ∀ r s, r < s → s < rk → p r < p s
  pivot_one : ∀ r, r < rk → entry M r (p r) = 1
  left_zero : ∀ r, r < rk → ∀ jj, jj < p r → entry M r jj = 0
  below_zero : ∀ r, r < rk → ∀ r', r < r' → entry M r' (p r) = 0
  bottom : ∀ r, rk ≤ r → ∀ jj, entry M r jj = 0
  cleared : ∀ r, t1 ≤ r → r < rk → ∀ r', r' ≠ r → entry M r' (p r) = 0

theorem getD_of_lt {α : Type _} (l : List α) (i : ℕ) (d : α) (h : i < l.length) :
    l.getD i d = l[i] := by
  rw [List.getD_eq_getElem?_getD, List.getElem?_eq_getElem h, Option.getD_some]

theorem getD_of_ge {α : Type _} (l : List α) (i : ℕ) (d : α) (h : l.length ≤ i) :
    l.getD i d = d := by
  rw [List.getD_eq_getElem?_getD, List.getElem?_eq_none h, Option.getD_none]

theorem getD_map_range {α : Type _} (f : ℕ → α) {m i : ℕ} (d : α) (h : i < m) :
    ((List.range m).map f).getD i d = f i := by
  rw [List.getD_eq_getElem?_getD, List.getElem?_map, List.getElem?_range h]
  simp

theorem isMat_nrows {A : Mat} {m n : ℕ} (h : isMat A m n) : nrowsF A = m := h.1

theorem isMat_ncols {A : Mat} {m n : ℕ} (h : isMat A m n) (hm : 0 < m) : ncolsF A = n := by
  rcases A with _ | ⟨a, A'⟩
  · exact absurd h.1 (by simp; omega)
  · exact h.2 a (by simp)

theorem isMat_sq {A : Mat} {n : ℕ} (h : isMat A n n) : nrowsF A = ncolsF A := by
  rcases Nat.eq_zero_or_pos n with h0 | hpos
  · subst h0
    have : A = [] := List.length_eq_zero.mp h.1
    subst this; rfl
  · rw [isMat_nrows h, isMat_ncols h hpos]

theorem isMat_getD_len {A : Mat} {m n : ℕ} (h : isMat A m n) {i : ℕ} (hi : i < m) :
    (A.getD i []).length = n := by
  have h' : i < A.length := h.1 ▸ hi
  rw [getD_of_lt _ _ _ h']
  exact h.2 _ (List.getElem_mem h')

theorem entry_ge_row {A : Mat} {m n : ℕ} (h : isMat A m n) {i : ℕ} (hi : m ≤ i) (j : ℕ) :
    entry A i j = 0 := by
  unfold entry
  rw [show A.getD i [] = [] from getD_of_ge A i [] (by rw [h.1]; exact hi)]
  simp

theorem entry_ge_col {A : Mat} {m n : ℕ} (h : isMat A m n) (i : ℕ) {j : ℕ} (hj : n ≤ j) :
    entry A i j = 0 := by
  rcases lt_or_ge i m with hi | hi
  · exact getD_of_ge _ _ _ (by rw [isMat_getD_len h hi]; exact hj)
  · exact entry_ge_row h hi j

theorem entry_lt {A : Mat} {i : ℕ} (hi : i < A.length) {j : ℕ}
    (hj : j < A[i].length) : entry A i j = A[i][j] := by
  unfold entry
  rw [getD_of_lt _ _ _ hi, getD_of_lt _ _ _ hj]

theorem mat_ext {A B : Mat} {m n : ℕ} (hA : isMat A m n) (hB : isMat B m n)
    (h : ∀ i < m, ∀ j < n, entry A i j = entry B i j) : A = B := by
  apply List.ext_getElem (by rw [hA.1, hB.1])
  intro i h1 h2
  have hi : i < m := hA.1 ▸ h1
  have hlA : A[i].length = n := hA.2 _ (List.getElem_mem h1)
  have hlB : B[i].length = n := hB.2 _ (List.getElem_mem h2)
  apply List.ext_getElem (by rw [hlA, hlB])
  intro j hj1 hj2
  have hj : j < n := hlA ▸ hj1
  have := h i hi j hj
  rwa [entry_lt h1 hj1, entry_lt h2 hj2] at this

theorem isMat_mk (f : ℕ → ℕ → ℚ) (m n : ℕ) :
    isMat ((List.range m).map fun i => (List.range n).map fun j => f i j) m n := by
  refine ⟨by simp, ?_⟩
  intro r hr
  simp only [List.mem_map, List.mem_range] at hr
  obtain ⟨i, _, rfl⟩ := hr
  simp

theorem entry_mk (f : ℕ → ℕ → ℚ) {m n i j : ℕ} (hi : i < m) (hj : j < n) :
    entry ((List.range m).map fun i => (List.range n).map fun j => f i j) i j = f i j := by
  unfold entry
  rw [getD_map_range _ _ hi, getD_map_range _ _ hj]

theorem isMat_identity (n : ℕ) : isMat (identity_matrix n) n n := isMat_mk _ n n

theorem entry_identity {n i j : ℕ} (hi : i < n) (hj : j < n) :
    entry (identity_matrix n) i j = if i = j then 1 else 0 := entry_mk _ hi hj

theorem isMat_matmulF (A B : Mat) : isMat (matmulF A B) (nrowsF A) (ncolsF B) := isMat_mk _ _ _

theorem entry_matmulF (A B : Mat) {i j : ℕ} (hi : i < nrowsF A) (hj : j < ncolsF B) :
    entry (matmulF A B) i j = ∑ k ∈ Finset.range (ncolsF A), entry A i k * entry B k j :=
  entry_mk _ hi hj

theorem isMat_adjF (rows : Mat) : isMat (adjF rows) rows.length rows.length := isMat_mk _ _ _

theorem entry_adjF (rows : Mat) {i j : ℕ} (hi : i < rows.length) (hj : j < rows.length) :
    entry (adjF rows) i j = (-1 : ℚ) ^ (i + j) * expand (cofRows rows j i) :=
  entry_mk _ hi hj

theorem reduce_matrix_inverse_mat (A : Mat) (z : ℤ) :
    reduce_matrix_inverse (.mat A) z =
      if nrowsF A ≠ ncolsF A then
        if z < 0 then .err "Taking the inverse of a non-square matrix"
        else .err "Taking the power of a non-square matrix"
      else
        let P := matpowF A z.natAbs
        if 0 ≤ z then .ok P
        else
          match detM P with
          | .error m => .err m
          | .ok d =>
            match adjM P with
            | .error m => .err m
            | .ok a =>
              match a.mapM (fun r => r.mapM (fun v => frac v d)) with
              | .error m => .err m
              | .ok rows2 => .ok rows2 := rfl

theorem flatten_map_singleton {α : Type _} (l : List α) : (l.map fun x => [x]).flatten = l := by
  induction l with
  | nil => rfl
  | cons a t ih => simp [ih]

/-- C8: for every matrix A with n columns, `rank(A) + nullity(A) = n`.
    `nullity` is `ncols(e) - rank(e)` over Python's unbounded integers, so
    the identity holds by construction, with `rank` the number of rows of the
    (non-reduced) echelon form of A that are not entirely zero. -/
theorem claim_C8 (e : Mat) : (rank e : ℤ) + nullity e = (ncolsF e : ℤ) := by
  unfold nullity
  ring

/-- C10: applying the exponentiation rule to a square matrix with exponent 0
    returns the identity matrix: the accumulator starts as
    `identity_matrix(nrows(A))` and the squaring loop body never runs since
    `i = 1 > 0 = npos`. -/
theorem claim_C10 {A : Mat} {n : ℕ} (h : isMat A n n) :
    reduce_matrix_inverse (.mat A) 0 = .ok (identity_matrix n) := by
  rw [reduce_matrix_inverse_mat, if_neg (not_not_intro (isMat_sq h))]
  show Res.ok (identity_matrix (nrowsF A)) = _
  rw [isMat_nrows h]

/-- Witness for C10 at the concrete 1×1 matrix [[5]]. -/
theorem claim_C10_witness : reduce_matrix_inverse (.mat [[(5 : ℚ)]]) 0 = .ok (identity_matrix 1) :=
  claim_C10 (by constructor <;> simp)

/-- C4 counterexample: the one-index Part rule applied to a vector with an
    index that is not an integer and not a symbolic `Expr` (e.g. a float)
    raises `ValueError` instead of signalling "not applicable", contradicting
    the claim that every non-integer index defers. -/
theorem claim_C4_counterexample :
    rule_part_vector (.mat [[(1 : ℚ)], [2]]) .other = .err "Expecting integer for index" := rfl

/-- C4 amended: for a matrix operand, a symbolic (`Expr`) index defers in both
    Part rules, while an index that is neither an int nor an `Expr` raises a
    hard `ValueError` (as do out-of-range integer indices and one-index access
    to a multi-column matrix). -/
theorem claim_C4_amended (rows : Mat) (i2 : Idx) :
    rule_part_vector (.mat rows) .sym = .defer ∧
    rule_part_matrix (.mat rows) .sym i2 = .defer ∧
    rule_part_matrix (.mat rows) i2 .sym = .defer ∧
    rule_part_vector (.mat rows) .other = .err "Expecting integer for index" ∧
    (i2 ≠ .sym →
      rule_part_matrix (.mat rows) .other i2 = .err "Expecting integer for first index") := by
  refine ⟨rfl, ?_, ?_, rfl, ?_⟩
  · cases i2 <;> rfl
  · cases i2 <;> rfl
  · intro hne
    cases i2 with
    | int k => rfl
    | sym => exact absurd rfl hne
    | other => rfl

/-- Witness for C4 amended at concrete inputs. -/
theorem claim_C4_amended_witness :
    rule_part_matrix (.mat [[(1 : ℚ)]]) .other .other = .err "Expecting integer for first index" :=
  (claim_C4_amended [[(1 : ℚ)]] .other).2.2.2.2 (by decide)

/-- C5 counterexample: `rows(A)` wraps each row of A as a column vector, so
    `matrix_with_rows(*rows(A))` vertically concatenates column vectors: for
    A = [[1,2],[3,4]] it returns the 4×1 matrix [[1],[2],[3],[4]], not A. -/
theorem claim_C5_counterexample :
    matrix_with_rows ((rowsF [[(1 : ℚ), 2], [3, 4]]).map PExpr.mat) =
      .ok [[1], [2], [3], [4]] ∧
    ([[(1 : ℚ)], [2], [3], [4]] : Mat) ≠ [[(1 : ℚ), 2], [3, 4]] := by
  constructor
  · rfl
  · decide

theorem transposeF_colvec (a : ℚ) (t : List ℚ) :
    transposeF ((a :: t).map fun v => [v]) = [a :: t] := by
  have key : ∀ s : List ℚ, s.map ((fun r => r[0]?.getD (0 : ℚ)) ∘ fun v => [v]) = s := by
    intro s
    induction s with
    | nil => rfl
    | cons x xs ih => simp only [List.map_cons, ih]; rfl
  unfold transposeF ncolsF
  simp [List.range_succ, List.map_map, key]

theorem extract_map_mat (l : List Mat) :
    (l.map PExpr.mat).map (fun r => match r with | PExpr.mat m2 => m2 | _ => []) = l := by
  induction l with
  | nil => rfl
  | cons x xs ih => simp only [List.map_cons, ih]

theorem matrix_with_rows_mats (l : List Mat) (hl : l ≠ [])
    (hcols : ∀ M2 ∈ l, ncolsF (l.headD []) = ncolsF M2) :
    matrix_with_rows (l.map PExpr.mat) = .ok l.flatten := by
  simp only [matrix_with_rows, extract_map_mat]
  rw [if_neg (by simpa using hl)]
  rw [if_neg (not_not_intro (by
    rw [List.all_eq_true]
    rintro x hx
    obtain ⟨y, _, rfl⟩ := List.mem_map.mp hx
    rfl))]
  rw [if_neg (not_not_intro (by
    rw [List.all_eq_true]
    intro m2 hm2
    simpa using hcols m2 hm2))]

/-- C5 amended: `rows(A)` yields the rows of A as column vectors, so
    vertically concatenating them does not rebuild A; transposing each of them
    back to a row vector first does: for every matrix A,
    `matrix_with_rows(*[transpose(r) for r in rows(A)]) == A`. -/
theorem claim_C5_amended {A : Mat} {m c : ℕ} (hA : isMat A m c) (hm : 0 < m) (hc : 0 < c) :
    matrix_with_rows (((rowsF A).map transposeF).map PExpr.mat) = .ok A := by
  have key : (rowsF A).map transposeF = A.map fun r => [r] := by
    unfold rowsF
    rw [List.map_map]
    apply List.map_congr_left
    intro r hr
    have hlen : r.length = c := hA.2 r hr
    rcases r with _ | ⟨a, t⟩
    · exact absurd hlen (by simp; omega)
    · exact transposeF_colvec a t
  rw [key]
  rcases A with _ | ⟨a0, A'⟩
  · exact absurd hA.1 (by simp; omega)
  · rw [matrix_with_rows_mats _ (by simp) ?_, flatten_map_singleton]
    intro M2 hM2
    obtain ⟨r, hr, rfl⟩ := List.mem_map.mp hM2
    have hrc : r.length = c := hA.2 r hr
    have h0 : a0.length = c := hA.2 a0 (by simp)
    simp [ncolsF, hrc, h0]

/-- Witness for C5 amended at A = [[1,2],[3,4]]. -/
theorem claim_C5_amended_witness :
    matrix_with_rows (((rowsF [[(1 : ℚ), 2], [3, 4]]).map transposeF).map PExpr.mat) =
      .ok [[(1 : ℚ), 2], [3, 4]] :=
  claim_C5_amended
    (by
      refine ⟨rfl, ?_⟩
      intro r hr
      simp only [List.mem_cons, List.not_mem_nil, or_false] at hr
      rcases hr with rfl | rfl <;> rfl)
    (by norm_num) (by norm_num)

theorem expand_base (M : Mat) (h : M.length = 1) : expand M = entry M 0 0 := by
  unfold expand
  rw [h]
  rfl

theorem expand_step (M : Mat) (h : M.length ≠ 1) :
    expand M = ∑ i ∈ Finset.range M.length,
      (-1 : ℚ) ^ i * entry M i 0 * expand ((M.eraseIdx i).map (List.drop 1)) := by
  unfold expand
  cases hm : M.length with
  | zero => rfl
  | succ m =>
    cases m with
    | zero => exact absurd hm h
    | succ m' =>
      show expandAux (m' + 2) M = _
      rw [expandAux]
      apply Finset.sum_congr rfl
      intro i hi
      rw [Finset.mem_range] at hi
      have hlen : (List.map (List.drop 1) (List.eraseIdx M i)).length = m' + 1 := by
        rw [List.length_map, List.length_eraseIdx, if_pos (by omega), hm]
        omega
      rw [hlen]

theorem expandAux_eq_detSpec : ∀ (n : ℕ) (M : Mat), expandAux n M = detSpec n M := by
  intro n
  induction n with
  | zero => intro M; rfl
  | succ k ih =>
    intro M
    cases k with
    | zero => rfl
    | succ k' =>
      rw [expandAux, detSpec]
      apply Finset.sum_congr rfl
      intro i _
      rw [ih]

theorem expand_eq_detSpec : ∀ (n : ℕ), ∀ M : Mat, M.length = n → 1 ≤ n →
    expand M = detSpec n M := by
  intro n M hM _
  unfold expand
  rw [hM, expandAux_eq_detSpec]

/-- C2: on a square n×n matrix (n at least 1), `det` returns exactly the
    recursive cofactor expansion along the first column described by the spec:
    the single entry when n = 1, and otherwise the sum over i of
    `(-1)^i * M[i][0] * det(M minus row i and column 0)` (`detSpec` is written
    from the spec text). -/
theorem claim_C2 {M : Mat} {n : ℕ} (h : isMat M n n) (hn : 1 ≤ n) :
    detRule (.mat M) = .ok (detSpec n M) := by
  have hd : detM M = .ok (expand M) := by
    unfold detM
    rw [if_neg (not_not_intro (isMat_sq h))]
  unfold detRule
  show (match detM M with | Except.ok v => Res.ok v | Except.error m => Res.err m) = _
  rw [hd]
  show Res.ok (expand M) = _
  rw [expand_eq_detSpec n M h.1 hn]

/-- Witness for C2 at M = [[1,2],[3,4]] (where both sides give -2). -/
theorem claim_C2_witness :
    detRule (.mat [[(1 : ℚ), 2], [3, 4]]) = .ok (detSpec 2 [[(1 : ℚ), 2], [3, 4]]) :=
  claim_C2
    (by
      refine ⟨rfl, ?_⟩
      intro r hr
      simp only [List.mem_cons, List.not_mem_nil, or_false] at hr
      rcases hr with rfl | rfl <;> rfl)
    (by norm_num)

theorem innerScan_eq (args : List PExpr) (i : ℕ) (Ai : Mat)
    (hAi : getRows (args.getD i (.scalar 0)) = Ai) :
    ∀ cnt s, s + cnt = args.length →
    innerScan args i Ai (List.range' s cnt) =
      (firstMatIdx (args.drop s)).map fun d => addResult args i (s + d) := by
  intro cnt
  induction cnt with
  | zero =>
    intro s hs
    rw [show List.range' s 0 = [] from rfl, List.drop_eq_nil_of_le (by omega)]
    rfl
  | succ c ih =>
    intro s hs
    have hslt : s < args.length := by omega
    rw [List.range'_succ, List.drop_eq_getElem_cons hslt]
    have hgd : args.getD s (.scalar 0) = args[s] := getD_of_lt _ _ _ hslt
    simp only [innerScan, hgd]
    rcases hx : args[s] with Aj | q | st
    · simp only [firstMatIdx, Option.map_some']
      unfold addResult
      simp only [hAi]
      simp only [Nat.add_zero, hgd, hx, getRows]
    · simp only [firstMatIdx]
      rw [ih (s + 1) (by omega), Option.map_map]
      cases hfi : firstMatIdx (args.drop (s + 1)) with
      | none => rfl
      | some d =>
        simp only [Option.map_some', Function.comp]
        have e1 : s + 1 + d = s + (d + 1) := by omega
        rw [e1]
    · simp only [firstMatIdx]
      rw [ih (s + 1) (by omega), Option.map_map]
      cases hfi : firstMatIdx (args.drop (s + 1)) with
      | none => rfl
      | some d =>
        simp only [Option.map_some', Function.comp]
        have e1 : s + 1 + d = s + (d + 1) := by omega
        rw [e1]

theorem outerScan_eq (args : List PExpr) :
    ∀ cnt s, s + cnt + 1 = args.length →
    outerScan args (List.range' s cnt) =
      (match firstMatIdx (args.drop s) with
       | none => Res.defer
       | some d =>
         match firstMatIdx (args.drop (s + d + 1)) with
         | none => Res.defer
         | some d' => addResult args (s + d) (s + d + 1 + d')) := by
  intro cnt
  induction cnt with
  | zero =>
    intro s hs
    have hslt : s < args.length := by omega
    rw [show List.range' s 0 = [] from rfl, List.drop_eq_getElem_cons hslt]
    have hrest : args.drop (s + 1) = [] := List.drop_eq_nil_of_le (by omega)
    rcases hx : args[s] with Aj | q | st <;>
      simp [outerScan, firstMatIdx, hrest, hx]
  | succ c ih =>
    intro s hs
    have hslt : s < args.length := by omega
    rw [List.range'_succ, List.drop_eq_getElem_cons hslt]
    have hgd : args.getD s (.scalar 0) = args[s] := getD_of_lt _ _ _ hslt
    simp only [outerScan, hgd]
    rcases hx : args[s] with Ai | q | st
    · have hAi : getRows (args.getD s (.scalar 0)) = Ai := by rw [hgd, hx]; rfl
      have hcnt : (s + 1) + (args.length - (s + 1)) = args.length := by omega
      show (match innerScan args s Ai (List.range' (s + 1) (args.length - (s + 1))) with
        | some r => r
        | none => outerScan args (List.range' (s + 1) c)) = _
      rw [innerScan_eq args s Ai hAi (args.length - (s + 1)) (s + 1) hcnt]
      simp only [firstMatIdx]
      cases hfi : firstMatIdx (args.drop (s + 1)) with
      | none =>
        simp only [hfi, Option.map_none']
        rw [ih (s + 1) (by omega)]
        simp [hfi]
      | some d =>
        simp only [hfi, Option.map_some']
        simp [hfi]
    · rw [ih (s + 1) (by omega)]
      simp only [firstMatIdx]
      cases hfi : firstMatIdx (args.drop (s + 1)) with
      | none => simp [hfi]
      | some d =>
        simp only [hfi, Option.map_some']
        have e1 : s + 1 + d = s + (d + 1) := by omega
        rw [e1]
    · rw [ih (s + 1) (by omega)]
      simp only [firstMatIdx]
      cases hfi : firstMatIdx (args.drop (s + 1)) with
      | none => simp [hfi]
      | some d =>
        simp only [hfi, Option.map_some']
        have e1 : s + 1 + d = s + (d + 1) := by omega
        rw [e1]

/-- C6: the addition rule equals its claimed description: scanning the
    summands, the first pair that are both matrices (the first matrix operand
    and the next matrix operand after it) is replaced by its elementwise sum
    when the row and column counts agree, with all other summands left in
    place; differing counts raise a hard error; with no such pair the rule
    defers. -/
theorem claim_C6 (args : List PExpr) : rule_matrix_addition args = specAdd args := by
  rcases Nat.eq_zero_or_pos args.length with h0 | hpos
  · have h : args = [] := List.length_eq_zero.mp h0
    subst h
    rfl
  · unfold rule_matrix_addition specAdd
    rw [List.range_eq_range', outerScan_eq args (args.length - 1) 0 (by omega)]
    simp only [List.drop_zero, Nat.zero_add]

/-- Every address held by the working list is at least N (i.e., fresh relative
    to a store whose first N cells belong to other objects). -/
def addrOK (N : ℕ) (mat : List ℕ) : Prop := ∀ x ∈ mat, N ≤ x

theorem writeAt_frame {N : ℕ} {s : Store} {mat : List ℕ} (hm : addrOK N mat)
    (k : ℕ) (r : List ℚ) {a : ℕ} (ha : a < N) :
    (writeAt s mat k r).getD a [] = s.getD a [] := by
  unfold writeAt
  cases hk : mat[k]? with
  | none => rfl
  | some b =>
    have hb : N ≤ b := hm b (List.getElem?_mem hk)
    rw [List.getD_eq_getElem?_getD, List.getElem?_set, if_neg (by omega),
      ← List.getD_eq_getElem?_getD]

theorem swapH_addrOK {N : ℕ} {mat : List ℕ} (hm : addrOK N mat) (i j : ℕ) :
    addrOK N (swapH mat i j) := by
  unfold swapH
  cases hi : mat[i]? with
  | none => exact hm
  | some a =>
    cases hj : mat[j]? with
    | none => exact hm
    | some b =>
      intro x hx
      rcases List.mem_or_eq_of_mem_set hx with hx' | rfl
      · rcases List.mem_or_eq_of_mem_set hx' with hx'' | rfl
        · exact hm x hx''
        · exact hm x (List.getElem?_mem hj)
      · exact hm x (List.getElem?_mem hi)

theorem elimRowsH_frame {N : ℕ} {mat : List ℕ} (hm : addrOK N mat) (i j : ℕ) {a : ℕ}
    (ha : a < N) :
    ∀ (ks : List ℕ) (s : Store), (elimRowsH mat i j s ks).getD a [] = s.getD a [] := by
  intro ks
  induction ks with
  | nil => intro s; rfl
  | cons k ks ih =>
    intro s
    rw [elimRowsH, ih]
    split
    · exact writeAt_frame hm _ _ ha
    · rfl

theorem rrLoopH_frame {N : ℕ} (rows cols to_col : ℕ) :
    ∀ (fuel : ℕ) (s : Store) (mat : List ℕ) (i j : ℕ) (lnz : ℤ), addrOK N mat →
    ((∀ a, a < N →
        (rrLoopH rows cols to_col fuel s mat i j lnz).1.getD a [] = s.getD a []) ∧
      addrOK N (rrLoopH rows cols to_col fuel s mat i j lnz).2.1) := by
  intro fuel
  induction fuel with
  | zero => intro s mat i j lnz hm; exact ⟨fun a _ => rfl, hm⟩
  | succ f ih =>
    intro s mat i j lnz hm
    simp only [rrLoopH]
    split
    · split
      · exact ⟨fun a _ => rfl, hm⟩
      · have hm1 : addrOK N (if isZeroRowH s cols mat i then
            (swapH mat i lnz.toNat, lnz - 1) else (mat, lnz)).1 := by
          split
          · exact swapH_addrOK hm _ _
          · exact hm
        set p := if isZeroRowH s cols mat i then (swapH mat i lnz.toNat, lnz - 1)
          else (mat, lnz) with hp
        have hm2 : addrOK N (if entryH s p.1 i j = 0 then
            match findNZH s p.1 j (List.range' (i + 1) (p.2 + 1 - (i + 1 : ℤ)).toNat) with
            | some k => swapH p.1 i k
            | none => p.1
          else p.1) := by
          split
          · split
            · exact swapH_addrOK hm1 _ _
            · exact hm1
          · exact hm1
        set mat2 := if entryH s p.1 i j = 0 then
            match findNZH s p.1 j (List.range' (i + 1) (p.2 + 1 - (i + 1 : ℤ)).toNat) with
            | some k => swapH p.1 i k
            | none => p.1
          else p.1 with hmat2
        split
        · exact ih s mat2 i (j + 1) p.2 hm2
        · have h5 := ih (elimRowsH mat2 i j
            (if entryH s mat2 i j ≠ 1 then scaleH s mat2 i (1 / entryH s mat2 i j) else s)
            (List.range' (i + 1) (p.2 + 1 - (i + 1 : ℤ)).toNat)) mat2 (i + 1) (j + 1) p.2 hm2
          refine ⟨?_, h5.2⟩
          intro a ha
          have h3 : (if entryH s mat2 i j ≠ 1 then scaleH s mat2 i (1 / entryH s mat2 i j)
              else s).getD a [] = s.getD a [] := by
            split
            · exact writeAt_frame hm2 _ _ ha
            · rfl
          have h4 := elimRowsH_frame hm2 i j ha
            (List.range' (i + 1) (p.2 + 1 - (i + 1 : ℤ)).toNat)
            (if entryH s mat2 i j ≠ 1 then scaleH s mat2 i (1 / entryH s mat2 i j) else s)
          rw [h5.1 a ha, h4, h3]
    · exact ⟨fun a _ => rfl, hm⟩

theorem backLoopH_frame {N : ℕ} (to_col : ℕ) {mat : List ℕ} (hm : addrOK N mat) {a : ℕ}
    (ha : a < N) :
    ∀ (is : List ℕ) (s : Store), (backLoopH to_col mat s is).getD a [] = s.getD a [] := by
  intro is
  induction is with
  | nil => intro s; rfl
  | cons i is ih =>
    intro s
    rw [backLoopH, ih]
    split
    · exact elimRowsH_frame hm _ _ ha _ _
    · rfl

/-- C9: `row_reduce` never mutates its input matrix: all mutation happens on
    the freshly allocated working copy.  In the store model, every store cell
    that existed before the call (in particular every row object of the input
    matrix) is unchanged when `row_reduce` returns, for every combination of
    `rref` and `to_col`; and the returned matrix is newly constructed — all
    its row objects are fresh cells. -/
theorem claim_C9 (s0 : Store) (eAddrs : List ℕ) (rref : Bool) (to_col : Option ℕ) :
    (∀ a, a < s0.length → ((row_reduceH s0 eAddrs rref to_col).1).getD a [] = s0.getD a []) ∧
    (∀ x ∈ (row_reduceH s0 eAddrs rref to_col).2, s0.length ≤ x) := by
  have hfresh : addrOK s0.length (List.range' s0.length eAddrs.length) := by
    intro x hx
    rw [List.mem_range'] at hx
    obtain ⟨i, _, rfl⟩ := hx
    omega
  simp only [row_reduceH]
  set s1 := s0 ++ eAddrs.map fun b => s0.getD b [] with hs1
  set fa := List.range' s0.length eAddrs.length with hfa
  set cols := (readAt s1 fa 0).length with hcolsdef
  set tc := min cols (to_col.getD cols) with htc
  have h2 := rrLoopH_frame fa.length cols tc tc s1 fa 0 0 (lastNZscanH s1 cols fa fa.length)
    hfresh
  constructor
  · intro a ha
    have h1 : s1.getD a [] = s0.getD a [] := List.getD_append _ _ _ _ ha
    split
    · rw [backLoopH_frame tc h2.2 ha _ _, h2.1 a ha, h1]
    · rw [h2.1 a ha, h1]
  · exact h2.2

theorem getElem?_eraseIdx {α : Type _} (l : List α) {i : ℕ} (r : ℕ) (hi : i < l.length) :
    (l.eraseIdx i)[r]? = if r < i then l[r]? else l[r + 1]? := by
  rw [List.eraseIdx_eq_take_drop_succ, List.getElem?_append]
  have hlen : (List.take i l).length = i := by
    rw [List.length_take]
    omega
  rw [hlen]
  by_cases h : r < i
  · rw [if_pos h, if_pos h, List.getElem?_take, if_pos h]
  · rw [if_neg h, if_neg h, List.getElem?_drop]
    congr 1
    omega

theorem getD_map_drop (l : Mat) (r : ℕ) :
    (l.map (List.drop 1)).getD r [] = (l.getD r []).drop 1 := by
  rw [List.getD_eq_getElem?_getD, List.getElem?_map, List.getD_eq_getElem?_getD]
  cases l[r]? <;> rfl

theorem getD_map_eraseIdx (l : Mat) (j0 r : ℕ) :
    ((l.map fun rr => rr.eraseIdx j0).getD r []) = (l.getD r []).eraseIdx j0 := by
  rw [List.getD_eq_getElem?_getD, List.getElem?_map, List.getD_eq_getElem?_getD]
  cases l[r]? <;> rfl

theorem getD_drop_one (row : List ℚ) (c : ℕ) : (row.drop 1).getD c 0 = row.getD (c + 1) 0 := by
  rw [List.getD_eq_getElem?_getD, List.getElem?_drop, List.getD_eq_getElem?_getD,
    Nat.add_comm 1 c]

theorem getD_eraseIdx_row (row : List ℚ) {j0 : ℕ} (c : ℕ) (hj : j0 < row.length) :
    (row.eraseIdx j0).getD c 0 = if c < j0 then row.getD c 0 else row.getD (c + 1) 0 := by
  rw [List.getD_eq_getElem?_getD, getElem?_eraseIdx row c hj]
  by_cases h : c < j0
  · rw [if_pos h, if_pos h, ← List.getD_eq_getElem?_getD]
  · rw [if_neg h, if_neg h, ← List.getD_eq_getElem?_getD]

theorem getD_eraseIdx_outer (A : Mat) {i : ℕ} (r : ℕ) (hi : i < A.length) :
    (A.eraseIdx i).getD r [] = if r < i then A.getD r [] else A.getD (r + 1) [] := by
  rw [List.getD_eq_getElem?_getD, getElem?_eraseIdx A r hi]
  by_cases h : r < i
  · rw [if_pos h, if_pos h, ← List.getD_eq_getElem?_getD]
  · rw [if_neg h, if_neg h, ← List.getD_eq_getElem?_getD]

theorem val_succAbove {n : ℕ} (p : Fin (n + 1)) (i : Fin n) :
    (p.succAbove i : ℕ) = if (i : ℕ) < (p : ℕ) then (i : ℕ) else (i : ℕ) + 1 := by
  by_cases h : Fin.castSucc i < p
  · rw [Fin.succAbove_of_castSucc_lt p i h, if_pos]
    · rfl
    · rw [Fin.lt_def] at h
      exact h
  · rw [Fin.succAbove_of_le_castSucc p i (not_lt.mp h), if_neg]
    · rfl
    · rw [Fin.lt_def] at h
      exact h

theorem isMat_minor_succ {A : Mat} {k : ℕ} (h : isMat A (k + 2) (k + 2)) {i : ℕ}
    (hi : i < k + 2) : isMat ((A.eraseIdx i).map (List.drop 1)) (k + 1) (k + 1) := by
  constructor
  · rw [List.length_map, List.length_eraseIdx, if_pos (by rw [h.1]; exact hi), h.1]
    omega
  · intro r hr
    rw [List.mem_map] at hr
    obtain ⟨r0, hr0, rfl⟩ := hr
    have hmem : r0 ∈ A := List.mem_of_mem_eraseIdx hr0
    rw [List.length_drop, h.2 r0 hmem]
    omega

theorem toMatrix_minor {A : Mat} {k : ℕ} (h : isMat A (k + 2) (k + 2)) (i : Fin (k + 2)) :
    toMatrix ((A.eraseIdx (i : ℕ)).map (List.drop 1)) (k + 1) (k + 1) =
      (toMatrix A (k + 2) (k + 2)).submatrix i.succAbove Fin.succ := by
  apply Matrix.ext
  intro r c
  show entry ((A.eraseIdx (i : ℕ)).map (List.drop 1)) r c = entry A (i.succAbove r) (c.succ)
  unfold entry
  rw [getD_map_drop, getD_drop_one]
  rw [getD_eraseIdx_outer A r (by rw [h.1]; exact i.isLt)]
  rw [val_succAbove]
  by_cases hri : (r : ℕ) < (i : ℕ)
  · rw [if_pos hri, if_pos hri]
    rfl
  · rw [if_neg hri, if_neg hri]
    rfl

theorem expandAux_eq_det : ∀ (n : ℕ) (A : Mat), isMat A (n + 1) (n + 1) →
    expandAux (n + 1) A = (toMatrix A (n + 1) (n + 1)).det := by
  intro n
  induction n with
  | zero =>
    intro A h
    rw [Matrix.det_fin_one]
    rfl
  | succ k ih =>
    intro A h
    rw [Matrix.det_succ_column_zero, expandAux,
      ← Fin.sum_univ_eq_sum_range
        (fun i => (-1 : ℚ) ^ i * entry A i 0 * expandAux (k + 1) ((A.eraseIdx i).map (List.drop 1)))]
    apply Finset.sum_congr rfl
    intro i _
    have hmin : isMat ((A.eraseIdx (i : ℕ)).map (List.drop 1)) (k + 1) (k + 1) :=
      isMat_minor_succ h i.isLt
    rw [ih _ hmin, toMatrix_minor h i]
    rfl

theorem expand_eq_det (n : ℕ) (A : Mat) (h : isMat A (n + 1) (n + 1)) :
    expand A = (toMatrix A (n + 1) (n + 1)).det := by
  unfold expand
  rw [h.1, expandAux_eq_det n A h]

theorem isMat_cofRows {A : Mat} {k : ℕ} (h : isMat A (k + 2) (k + 2)) {i0 j0 : ℕ}
    (hi : i0 < k + 2) (hj : j0 < k + 2) : isMat (cofRows A i0 j0) (k + 1) (k + 1) := by
  constructor
  · unfold cofRows
    rw [List.length_map, List.length_eraseIdx, if_pos (by rw [h.1]; exact hi), h.1]
    omega
  · intro r hr
    unfold cofRows at hr
    rw [List.mem_map] at hr
    obtain ⟨r0, hr0, rfl⟩ := hr
    have hmem : r0 ∈ A := List.mem_of_mem_eraseIdx hr0
    rw [List.length_eraseIdx, if_pos (by rw [h.2 r0 hmem]; exact hj), h.2 r0 hmem]
    omega

theorem toMatrix_cofRows {A : Mat} {k : ℕ} (h : isMat A (k + 2) (k + 2))
    (i0 j0 : Fin (k + 2)) :
    toMatrix (cofRows A (i0 : ℕ) (j0 : ℕ)) (k + 1) (k + 1) =
      (toMatrix A (k + 2) (k + 2)).submatrix i0.succAbove j0.succAbove := by
  have hrow : ∀ rr : ℕ, rr < k + 2 → (j0 : ℕ) < (A.getD rr []).length := by
    intro rr hrr
    rw [isMat_getD_len h hrr]
    exact j0.isLt
  apply Matrix.ext
  intro r c
  show entry (cofRows A (i0 : ℕ) (j0 : ℕ)) r c = entry A (i0.succAbove r) (j0.succAbove c)
  unfold entry cofRows
  rw [getD_map_eraseIdx, getD_eraseIdx_outer A (r : ℕ) (by rw [h.1]; exact i0.isLt)]
  rw [val_succAbove, val_succAbove]
  by_cases hri : (r : ℕ) < (i0 : ℕ)
  · rw [if_pos hri, if_pos hri, getD_eraseIdx_row _ (c : ℕ) (hrow (r : ℕ) (by omega))]
    by_cases hcj : (c : ℕ) < (j0 : ℕ)
    · rw [if_pos hcj, if_pos hcj]
    · rw [if_neg hcj, if_neg hcj]
  · rw [if_neg hri, if_neg hri, getD_eraseIdx_row _ (c : ℕ) (hrow ((r : ℕ) + 1) (by omega))]
    by_cases hcj : (c : ℕ) < (j0 : ℕ)
    · rw [if_pos hcj, if_pos hcj]
    · rw [if_neg hcj, if_neg hcj]

theorem mkMatrix_ok {A : Mat} {m n : ℕ} (h : isMat A m n) (hm : 0 < m) :
    mkMatrix A = .ok A := by
  unfold mkMatrix
  rw [if_neg (by rw [h.1]; omega)]
  rw [if_neg ?_]
  intro hc
  rw [List.any_eq_true] at hc
  obtain ⟨r, hr, hdec⟩ := hc
  rw [decide_eq_true_eq] at hdec
  exact hdec (by rw [h.2 r hr, isMat_ncols h hm])

theorem detM_ok {A : Mat} {n : ℕ} (h : isMat A n n) : detM A = .ok (expand A) := by
  unfold detM
  rw [if_neg (not_not_intro (isMat_sq h))]

theorem mapM_ok {α β : Type} (f : α → Except String β) (g : α → β) (l : List α)
    (h : ∀ x ∈ l, f x = .ok (g x)) : l.mapM f = .ok (l.map g) := by
  induction l with
  | nil => rfl
  | cons a t ih =>
    rw [List.mapM_cons, h a (by simp), ih fun x hx => h x (by simp [hx])]
    rfl

theorem cof_ok {A : Mat} {k : ℕ} (h : isMat A (k + 2) (k + 2)) {i0 j0 : ℕ}
    (hi : i0 < k + 2) (hj : j0 < k + 2) :
    cof A i0 j0 = .ok (expand (cofRows A i0 j0)) := by
  unfold cof
  rw [mkMatrix_ok (isMat_cofRows h hi hj) (by omega)]
  exact detM_ok (isMat_cofRows h hi hj)

theorem adjM_eq_adjF {A : Mat} {k : ℕ} (h : isMat A (k + 2) (k + 2)) :
    adjM A = .ok (adjF A) := by
  unfold adjM adjF
  rw [if_neg (not_not_intro (show A.length = (A.headD []).length from isMat_sq h))]
  apply mapM_ok
  intro i hi
  rw [List.mem_range, h.1] at hi
  apply mapM_ok
  intro j hj
  rw [List.mem_range, h.1] at hj
  rw [cof_ok h hj hi]
  rfl

theorem toMatrix_matmulF {A B : Mat} {m k n : ℕ} (hA : isMat A m k) (hB : isMat B k n)
    (hk : 0 < k) :
    toMatrix (matmulF A B) m n = toMatrix A m k * toMatrix B k n := by
  apply Matrix.ext
  intro i j
  rw [Matrix.mul_apply]
  show entry (matmulF A B) i j = _
  rw [entry_matmulF A B (by rw [isMat_nrows hA]; exact i.isLt)
    (by rw [isMat_ncols hB hk]; exact j.isLt)]
  rw [isMat_ncols hA i.pos]
  rw [← Fin.sum_univ_eq_sum_range (fun x => entry A i x * entry B x j) k]
  rfl

theorem toMatrix_identity (n : ℕ) : toMatrix (identity_matrix n) n n = 1 := by
  apply Matrix.ext
  intro i j
  show entry (identity_matrix n) i j = _
  rw [entry_identity i.isLt j.isLt, Matrix.one_apply]
  by_cases hij : (i : ℕ) = (j : ℕ)
  · rw [if_pos hij, if_pos (Fin.ext hij)]
  · rw [if_neg hij, if_neg fun hh => hij (congrArg Fin.val hh)]

theorem getD_map_mul (c : ℚ) (A : Mat) (i : ℕ) :
    (A.map fun r => r.map fun x => c * x).getD i [] = (A.getD i []).map fun x => c * x := by
  rw [List.getD_eq_getElem?_getD, List.getElem?_map, List.getD_eq_getElem?_getD]
  cases A[i]? <;> rfl

theorem entry_scalarMulF (c : ℚ) (A : Mat) (i j : ℕ) :
    entry (scalarMulF c A) i j = c * entry A i j := by
  unfold scalarMulF entry
  rw [getD_map_mul]
  generalize A.getD i [] = row
  rw [List.getD_eq_getElem?_getD, List.getElem?_map, List.getD_eq_getElem?_getD]
  cases row[j]? with
  | none => simp
  | some v => rfl

theorem isMat_scalarMulF (c : ℚ) {A : Mat} {m n : ℕ} (h : isMat A m n) :
    isMat (scalarMulF c A) m n := by
  constructor
  · unfold scalarMulF
    rw [List.length_map, h.1]
  · intro r hr
    unfold scalarMulF at hr
    rw [List.mem_map] at hr
    obtain ⟨r0, hr0, rfl⟩ := hr
    rw [List.length_map]
    exact h.2 r0 hr0

theorem toMatrix_scalarMulF (c : ℚ) (A : Mat) (m n : ℕ) :
    toMatrix (scalarMulF c A) m n = c • toMatrix A m n := by
  apply Matrix.ext
  intro i j
  rw [Matrix.smul_apply, smul_eq_mul]
  exact entry_scalarMulF c A i j

theorem toMatrix_adjF {A : Mat} {k : ℕ} (h : isMat A (k + 2) (k + 2)) :
    toMatrix (adjF A) (k + 2) (k + 2) = Matrix.adjugate (toMatrix A (k + 2) (k + 2)) := by
  apply Matrix.ext
  intro i j
  rw [Matrix.adjugate_fin_succ_eq_det_submatrix]
  show entry (adjF A) i j = _
  rw [entry_adjF A (by rw [h.1]; exact i.isLt) (by rw [h.1]; exact j.isLt)]
  rw [expand_eq_det k _ (isMat_cofRows h j.isLt i.isLt)]
  rw [toMatrix_cofRows h j i]
  rw [Nat.add_comm (i : ℕ) (j : ℕ)]

/-- C1 counterexample: for the 1×1 matrix [[1]] the rule pipeline for
    `A @ adj(A)` raises a hard error instead of producing `det(A) *
    identity_matrix(1)`: inside `adj`, the cofactor submatrix has zero rows
    and the matrix constructor rejects it.  So the adjugate identity does not
    hold "for every square n×n matrix". -/
theorem claim_C1_counterexample :
    adjProduct [[(1 : ℚ)]] = .err "We require matrices to have at least one row and column." :=
  rfl

/-- C1 amended (n restricted to at least 2): for every square n×n matrix with
    n ≥ 2, evaluating `A @ adj(A)` succeeds and equals `det(A) *
    identity_matrix(n)`, the adjugate identity, with no precondition on
    invertibility (it holds also when det(A) = 0). -/
theorem claim_C1_amended {A : Mat} {n : ℕ} (h : isMat A n n) (hn : 2 ≤ n) :
    adjProduct A = .ok (scalarMulF (expand A) (identity_matrix n)) := by
  obtain ⟨k, rfl⟩ : ∃ k, n = k + 2 := ⟨n - 2, by omega⟩
  unfold adjProduct
  rw [adjM_eq_adjF h]
  show reduce_matmul (.mat A) (.mat (adjF A)) = _
  unfold reduce_matmul
  have hadjshape : isMat (adjF A) (k + 2) (k + 2) := by
    have h2 := isMat_adjF A
    rw [h.1] at h2
    exact h2
  show (if ncolsF A ≠ nrowsF (adjF A) then
      Res.err "Number of columns of first argument does not equal number of rows of second argument"
    else Res.ok (matmulF A (adjF A))) = _
  rw [if_neg (by rw [isMat_ncols h (by omega), isMat_nrows hadjshape]; exact not_not_intro rfl)]
  have h1 : isMat (matmulF A (adjF A)) (k + 2) (k + 2) := by
    have h2 := isMat_matmulF A (adjF A)
    rw [isMat_nrows h, isMat_ncols hadjshape (by omega)] at h2
    exact h2
  have h2 : isMat (scalarMulF (expand A) (identity_matrix (k + 2))) (k + 2) (k + 2) :=
    isMat_scalarMulF _ (isMat_identity (k + 2))
  have hM : toMatrix (matmulF A (adjF A)) (k + 2) (k + 2) =
      toMatrix (scalarMulF (expand A) (identity_matrix (k + 2))) (k + 2) (k + 2) := by
    rw [toMatrix_matmulF h hadjshape (by omega), toMatrix_adjF h, Matrix.mul_adjugate,
      toMatrix_scalarMulF, toMatrix_identity, expand_eq_det (k + 1) A h]
  congr 1
  exact mat_ext h1 h2 fun i hi j hj => congrFun (congrFun hM ⟨i, hi⟩) ⟨j, hj⟩

/-- Witness for C1 amended at the singular matrix A = [[1,2],[2,4]]
    (det(A) = 0, and the identity still holds). -/
theorem claim_C1_amended_witness :
    adjProduct [[(1 : ℚ), 2], [2, 4]] =
      .ok (scalarMulF (expand [[(1 : ℚ), 2], [2, 4]]) (identity_matrix 2)) :=
  claim_C1_amended
    (by
      refine ⟨rfl, ?_⟩
      intro r hr
      simp only [List.mem_cons, List.not_mem_nil, or_false] at hr
      rcases hr with rfl | rfl <;> rfl)
    (by norm_num)

theorem isMat_matmulF_sq {A B : Mat} {n : ℕ} (hA : isMat A n n) (hB : isMat B n n)
    (hn : 0 < n) : isMat (matmulF A B) n n := by
  have h2 := isMat_matmulF A B
  rw [isMat_nrows hA, isMat_ncols hB hn] at h2
  exact h2

theorem powLoop_pow {n : ℕ} (hn : 0 < n) (npos : ℕ) (M : Matrix (Fin n) (Fin n) ℚ) :
    ∀ (fuel kk : ℕ) (B P : Mat), isMat B n n → isMat P n n →
      toMatrix B n n = M ^ (2 ^ kk) → toMatrix P n n = M ^ (npos % 2 ^ kk) →
      npos < 2 ^ (kk + fuel) →
      (isMat (powLoop npos fuel (2 ^ kk) B P) n n ∧
        toMatrix (powLoop npos fuel (2 ^ kk) B P) n n = M ^ npos) := by
  intro fuel
  induction fuel with
  | zero =>
    intro kk B P hB hP hBM hPM hlt
    rw [Nat.add_zero] at hlt
    refine ⟨hP, ?_⟩
    show toMatrix P n n = M ^ npos
    rw [hPM, Nat.mod_eq_of_lt hlt]
  | succ f ih =>
    intro kk B P hB hP hBM hPM hlt
    rw [powLoop]
    by_cases hle : 2 ^ kk ≤ npos
    · rw [if_pos hle]
      have hsh : (2 ^ kk) <<< 1 = 2 ^ (kk + 1) := by
        rw [Nat.shiftLeft_eq]
        ring
      rw [hsh]
      have hPshape : isMat (if 2 ^ kk &&& npos ≠ 0 then matmulF P B else P) n n := by
        split
        · exact isMat_matmulF_sq hP hB hn
        · exact hP
      have hBM' : toMatrix (matmulF B B) n n = M ^ (2 ^ (kk + 1)) := by
        rw [toMatrix_matmulF hB hB hn, hBM, ← pow_add]
        congr 1
        ring
      have hPM' : toMatrix (if 2 ^ kk &&& npos ≠ 0 then matmulF P B else P) n n =
          M ^ (npos % 2 ^ (kk + 1)) := by
        have hmod : npos % 2 ^ (kk + 1) =
            npos % 2 ^ kk + 2 ^ kk * (npos / 2 ^ kk % 2) := Nat.mod_pow_succ
        have hand : 2 ^ kk &&& npos = 2 ^ kk * (npos.testBit kk).toNat :=
          Nat.two_pow_and npos kk
        by_cases hbit : npos.testBit kk = true
        · have hdiv : npos / 2 ^ kk % 2 = 1 := by
            rw [Nat.testBit_to_div_mod] at hbit
            exact of_decide_eq_true hbit
          rw [if_pos (by
            rw [hand, hbit]
            simp)]
          rw [toMatrix_matmulF hP hB hn, hPM, hBM, ← pow_add, hmod, hdiv]
          congr 1
          ring
        · rw [Bool.not_eq_true] at hbit
          have hdiv : npos / 2 ^ kk % 2 = 0 := by
            rw [Nat.testBit_to_div_mod] at hbit
            have hne : ¬ npos / 2 ^ kk % 2 = 1 := of_decide_eq_false hbit
            omega
          rw [if_neg (by
            rw [hand, hbit]
            simp)]
          rw [hPM, hmod, hdiv]
          simp
      have hlt' : npos < 2 ^ (kk + 1 + f) := by
        have : kk + 1 + f = kk + (f + 1) := by omega
        rw [this]
        exact hlt
      exact ih (kk + 1) (matmulF B B) _ (isMat_matmulF_sq hB hB hn) hPshape hBM' hPM' hlt'
    · rw [if_neg hle]
      exact ⟨hP, by rw [hPM, Nat.mod_eq_of_lt (by omega)]⟩


theorem matpowF_pow {A : Mat} {n : ℕ} (h : isMat A n n) (hn : 0 < n) (npos : ℕ) :
    isMat (matpowF A npos) n n ∧
      toMatrix (matpowF A npos) n n = (toMatrix A n n) ^ npos := by
  unfold matpowF
  rw [isMat_nrows h]
  have hlt : npos < 2 ^ (0 + (npos + 1)) := by
    calc npos < 2 ^ npos := Nat.lt_two_pow npos
    _ ≤ 2 ^ (0 + (npos + 1)) := Nat.pow_le_pow_right (by norm_num) (by omega)
  exact powLoop_pow hn npos (toMatrix A n n) (npos + 1) 0 A (identity_matrix n) h
    (isMat_identity n) (by simp) (by rw [pow_zero, Nat.mod_one, pow_zero, toMatrix_identity])
    hlt

theorem rmi_neg {A P : Mat} {z : ℤ} (hz : z < 0) (hsq : nrowsF A = ncolsF A)
    (hP : matpowF A z.natAbs = P) (d : ℚ) (hdet : detM P = .ok d) (a : Mat)
    (hadj : adjM P = .ok a) :
    reduce_matrix_inverse (.mat A) z =
      match a.mapM (fun r => r.mapM fun v => frac v d) with
      | .error m => .err m
      | .ok rows2 => .ok rows2 := by
  rw [reduce_matrix_inverse_mat, if_neg (not_not_intro hsq), if_neg (by omega), hP, hdet, hadj]

theorem isMat_cons {A : Mat} {m n : ℕ} (h : isMat A (m + 1) (n + 1)) :
    ∃ v0 r0 rest, A = (v0 :: r0) :: rest := by
  rcases A with _ | ⟨r, rest⟩
  · exact absurd h.1 (by simp)
  · rcases r with _ | ⟨v0, r0⟩
    · have h0 := h.2 [] (by simp)
      simp at h0
    · exact ⟨v0, r0, rest, rfl⟩

theorem mapM_frac_zero {rows : Mat} {v0 : ℚ} {r0 : List ℚ} {rest : Mat}
    (h : rows = (v0 :: r0) :: rest) :
    rows.mapM (fun r => r.mapM fun v => frac v 0) =
      .error "Division by a zero determinant: singular matrix" := by
  subst h
  rfl

/-- C3 counterexample: for the 1×1 matrix [[2]] with exponent -1 (determinant
    2, nonzero), evaluation raises a hard error instead of returning
    `adj(P)/det(P)` entrywise: `adj` of a 1×1 matrix fails in the matrix
    constructor on the empty cofactor submatrix. -/
theorem claim_C3_counterexample :
    reduce_matrix_inverse (.mat [[(2 : ℚ)]]) (-1) =
      .err "We require matrices to have at least one row and column." :=
  rfl

/-- C3 amended (n restricted to at least 2): for a square n×n matrix with
    n ≥ 2 and a negative integer exponent z, the rule computes
    `P = A^{|z|}` by exponentiation-by-squaring (P agrees with the
    mathematical |z|-th power of A), then returns `adj(P)/det(P)` entrywise
    via exact rational division; a zero determinant of P surfaces as a hard
    error rather than a value. -/
theorem claim_C3_amended {A : Mat} {n : ℕ} (h : isMat A n n) (hn : 2 ≤ n) {z : ℤ}
    (hz : z < 0) :
    toMatrix (matpowF A z.natAbs) n n = (toMatrix A n n) ^ z.natAbs ∧
    (expand (matpowF A z.natAbs) = 0 →
      reduce_matrix_inverse (.mat A) z =
        .err "Division by a zero determinant: singular matrix") ∧
    (expand (matpowF A z.natAbs) ≠ 0 →
      reduce_matrix_inverse (.mat A) z =
        .ok ((adjF (matpowF A z.natAbs)).map fun r =>
          r.map fun v => v / expand (matpowF A z.natAbs))) := by
  obtain ⟨hPshape, hPM⟩ := matpowF_pow h (by omega) z.natAbs
  obtain ⟨k, rfl⟩ : ∃ k, n = k + 2 := ⟨n - 2, by omega⟩
  have hstep := rmi_neg hz (isMat_sq h) rfl (expand (matpowF A z.natAbs)) (detM_ok hPshape)
    (adjF (matpowF A z.natAbs)) (adjM_eq_adjF hPshape)
  refine ⟨hPM, ?_, ?_⟩
  · intro hd
    rw [hstep, hd]
    obtain ⟨v0, r0, rest, hdecomp⟩ :=
      isMat_cons (A := adjF (matpowF A z.natAbs)) (by
        have h2 := isMat_adjF (matpowF A z.natAbs)
        rw [hPshape.1] at h2
        exact h2)
    rw [mapM_frac_zero hdecomp]
  · intro hd
    rw [hstep]
    rw [mapM_ok _ (fun r => r.map fun v => v / expand (matpowF A z.natAbs)) _
      (fun r hr => mapM_ok _ (fun v => v / expand (matpowF A z.natAbs)) r
        (fun v hv => by unfold frac; rw [if_neg hd]))]

/-- Witness for C9: on a concrete store holding a 2×2 input matrix at
    addresses 0 and 1, cell 0 is unchanged by a full RREF row reduction. -/
theorem claim_C9_witness :
    ((row_reduceH [[(1 : ℚ), 2], [3, 4]] [0, 1] true none).1).getD 0 [] =
      ([[(1 : ℚ), 2], [3, 4]] : Store).getD 0 [] :=
  (claim_C9 [[(1 : ℚ), 2], [3, 4]] [0, 1] true none).1 0 (by norm_num)

theorem matpow_one {A : Mat} {n : ℕ} (h : isMat A n n) (hn : 0 < n) : matpowF A 1 = A := by
  obtain ⟨hs, hm⟩ := matpowF_pow h hn 1
  rw [pow_one] at hm
  exact mat_ext hs h fun i hi j hj => congrFun (congrFun hm ⟨i, hi⟩) ⟨j, hj⟩

/-- Witness for C3 amended at A = [[1,2],[3,4]], z = -1 (det = -2, nonzero). -/
theorem claim_C3_amended_witness :
    reduce_matrix_inverse (.mat [[(1 : ℚ), 2], [3, 4]]) (-1) =
      .ok ((adjF (matpowF [[(1 : ℚ), 2], [3, 4]] (Int.natAbs (-1)))).map fun r =>
        r.map fun v => v / expand (matpowF [[(1 : ℚ), 2], [3, 4]] (Int.natAbs (-1)))) := by
  have hshape : isMat [[(1 : ℚ), 2], [3, 4]] 2 2 := by
    refine ⟨rfl, ?_⟩
    intro r hr
    simp only [List.mem_cons, List.not_mem_nil, or_false] at hr
    rcases hr with rfl | rfl <;> rfl
  apply (claim_C3_amended hshape (by norm_num) (by norm_num)).2.2
  rw [show Int.natAbs (-1) = 1 from rfl, matpow_one hshape (by norm_num)]
  norm_num [expand, expandAux, entry, Finset.sum_range_succ]

theorem copy_eq (e : Mat) : (e.map fun r => r.map fun v => v) = e := by
  induction e with
  | nil => rfl
  | cons r t ih =>
    simp only [List.map_cons, ih]
    congr 1
    exact List.map_id' r

theorem entry_rect_ge {M : Mat} {c : ℕ} (hrect : ∀ r ∈ M, r.length = c) (i : ℕ) {jj : ℕ}
    (hjj : c ≤ jj) : entry M i jj = 0 := by
  unfold entry
  rcases lt_or_ge i M.length with hi | hi
  · rw [getD_of_lt _ _ _ hi]
    exact getD_of_ge _ _ _ (by rw [hrect _ (List.getElem_mem hi)]; exact hjj)
  · rw [getD_of_ge _ _ _ hi]
    simp

theorem isZeroRow_iff (c : ℕ) (M : Mat) (i : ℕ) :
    isZeroRow c M i = true ↔ ∀ k, k < c → entry M i k = 0 := by
  unfold isZeroRow
  rw [List.all_eq_true]
  constructor
  · intro h k hk
    have := h k (List.mem_range.mpr hk)
    rwa [beq_iff_eq] at this
  · intro h k hk
    rw [List.mem_range] at hk
    rw [beq_iff_eq]
    exact h k hk

theorem isZeroRow_entries {M : Mat} {c : ℕ} (hrect : ∀ r ∈ M, r.length = c) {i : ℕ}
    (h : isZeroRow c M i = true) : ∀ jj, entry M i jj = 0 := by
  intro jj
  rcases lt_or_ge jj c with hc | hc
  · exact (isZeroRow_iff c M i).mp h jj hc
  · exact entry_rect_ge hrect i hc

theorem isZeroRow_false_of_ne {M : Mat} {c : ℕ} {i k : ℕ} (hk : k < c)
    (h : entry M i k ≠ 0) : isZeroRow c M i = false := by
  rw [Bool.eq_false_iff]
  intro hz
  exact h ((isZeroRow_iff c M i).mp hz k hk)

theorem length_swapF (M : Mat) (i j : ℕ) : (swapF M i j).length = M.length := by
  unfold swapF
  rw [List.length_set, List.length_set]

theorem length_scaleF (M : Mat) (i : ℕ) (c0 : ℚ) : (scaleF M i c0).length = M.length := by
  unfold scaleF
  rw [List.length_set]

theorem length_replaceF (M : Mat) (i j : ℕ) (c0 : ℚ) :
    (replaceF M i j c0).length = M.length := by
  unfold replaceF
  rw [List.length_set]

theorem rect_swapF {M : Mat} {c : ℕ} (hrect : ∀ r ∈ M, r.length = c) {i j : ℕ}
    (hi : i < M.length) (hj : j < M.length) : ∀ r ∈ swapF M i j, r.length = c := by
  intro r hr
  unfold swapF at hr
  rcases List.mem_or_eq_of_mem_set hr with hr' | rfl
  · rcases List.mem_or_eq_of_mem_set hr' with hr'' | rfl
    · exact hrect r hr''
    · rw [getD_of_lt _ _ _ hj] at *
      exact hrect _ (List.getElem_mem hj)
  · rw [getD_of_lt _ _ _ hi]
    exact hrect _ (List.getElem_mem hi)

theorem entry_swapF {M : Mat} {i j : ℕ} (hi : i < M.length) (hj : j < M.length)
    (r c' : ℕ) :
    entry (swapF M i j) r c' =
      if r = j then entry M i c' else if r = i then entry M j c' else entry M r c' := by
  have hsw : swapF M i j = (M.set i (M.getD j [])).set j (M.getD i []) := rfl
  unfold entry
  rw [hsw, List.getD_eq_getElem?_getD ((M.set i (M.getD j [])).set j (M.getD i [])) r,
    List.getElem?_set]
  by_cases hrj : j = r
  · rw [if_pos hrj, if_pos (by rw [List.length_set]; exact hj), if_pos hrj.symm,
      Option.getD_some]
  · rw [if_neg hrj, List.getElem?_set,
      if_neg (show ¬ r = j from fun hh => hrj hh.symm)]
    by_cases hri : i = r
    · rw [if_pos hri, if_pos hi, Option.getD_some, if_pos (show r = i from hri.symm)]
    · rw [if_neg hri, if_neg (show ¬ r = i from fun hh => hri hh.symm),
        ← List.getD_eq_getElem?_getD]

theorem entry_scaleF {M : Mat} {i : ℕ} (hi : i < M.length) (c0 : ℚ) (r j : ℕ) :
    entry (scaleF M i c0) r j = if r = i then entry M i j * c0 else entry M r j := by
  have hsc : scaleF M i c0 = M.set i ((M.getD i []).map fun v => v * c0) := rfl
  unfold entry
  rw [hsc, List.getD_eq_getElem?_getD (M.set i ((M.getD i []).map fun v => v * c0)) r,
    List.getElem?_set]
  by_cases hri : i = r
  · rw [if_pos hri, if_pos hi, Option.getD_some, if_pos (show r = i from hri.symm)]
    generalize M.getD i [] = row
    rw [List.getD_eq_getElem?_getD, List.getElem?_map, List.getD_eq_getElem?_getD]
    cases row[j]? with
    | none => simp
    | some v => rfl
  · rw [if_neg hri, if_neg (show ¬ r = i from fun hh => hri hh.symm),
      ← List.getD_eq_getElem?_getD]

theorem rect_scaleF {M : Mat} {c : ℕ} (hrect : ∀ r ∈ M, r.length = c) {i : ℕ}
    (hi : i < M.length) (c0 : ℚ) : ∀ r ∈ scaleF M i c0, r.length = c := by
  intro r hr
  unfold scaleF at hr
  rcases List.mem_or_eq_of_mem_set hr with hr' | rfl
  · exact hrect r hr'
  · rw [List.length_map, getD_of_lt _ _ _ hi]
    exact hrect _ (List.getElem_mem hi)

theorem entry_replaceF {M : Mat} {c : ℕ} (hrect : ∀ r ∈ M, r.length = c) {a b : ℕ}
    (ha : a < M.length) (hb : b < M.length) (c0 : ℚ) (r j : ℕ) :
    entry (replaceF M a b c0) r j =
      if r = a then entry M a j + c0 * entry M b j else entry M r j := by
  have hrp : replaceF M a b c0 =
      M.set a (List.zipWith (fun x y => x + c0 * y) (M.getD a []) (M.getD b [])) := rfl
  unfold entry
  rw [hrp, List.getD_eq_getElem?_getD
    (M.set a (List.zipWith (fun x y => x + c0 * y) (M.getD a []) (M.getD b []))) r,
    List.getElem?_set]
  by_cases hra : a = r
  · rw [if_pos hra, if_pos ha, Option.getD_some, if_pos (show r = a from hra.symm)]
    have hla : (M.getD a []).length = c := by
      rw [getD_of_lt _ _ _ ha]
      exact hrect _ (List.getElem_mem ha)
    have hlb : (M.getD b []).length = c := by
      rw [getD_of_lt _ _ _ hb]
      exact hrect _ (List.getElem_mem hb)
    rw [List.getD_eq_getElem?_getD, List.getElem?_zipWith]
    rcases lt_or_ge j c with hj | hj
    · rw [List.getElem?_eq_getElem (show j < (M.getD a []).length by rw [hla]; exact hj),
        List.getElem?_eq_getElem (show j < (M.getD b []).length by rw [hlb]; exact hj)]
      rw [getD_of_lt _ _ _ (show j < (M.getD a []).length by rw [hla]; exact hj),
        getD_of_lt _ _ _ (show j < (M.getD b []).length by rw [hlb]; exact hj)]
      rfl
    · rw [List.getElem?_eq_none (show (M.getD a []).length ≤ j by rw [hla]; exact hj),
        List.getElem?_eq_none (show (M.getD b []).length ≤ j by rw [hlb]; exact hj)]
      rw [getD_of_ge _ _ _ (show (M.getD a []).length ≤ j by rw [hla]; exact hj),
        getD_of_ge _ _ _ (show (M.getD b []).length ≤ j by rw [hlb]; exact hj)]
      simp
  · rw [if_neg hra, if_neg (show ¬ r = a from fun hh => hra hh.symm),
      ← List.getD_eq_getElem?_getD]

theorem rect_replaceF {M : Mat} {c : ℕ} (hrect : ∀ r ∈ M, r.length = c) {a b : ℕ}
    (ha : a < M.length) (hb : b < M.length) (c0 : ℚ) :
    ∀ r ∈ replaceF M a b c0, r.length = c := by
  intro r hr
  unfold replaceF at hr
  rcases List.mem_or_eq_of_mem_set hr with hr' | rfl
  · exact hrect r hr'
  · rw [List.length_zipWith, getD_of_lt _ _ _ ha, getD_of_lt _ _ _ hb,
      hrect _ (List.getElem_mem ha), hrect _ (List.getElem_mem hb)]
    exact min_self c

theorem elimRows_nop (i j : ℕ) : ∀ (ks : List ℕ) (M : Mat),
    (∀ k ∈ ks, entry M k j = 0) → elimRows i j M ks = M := by
  intro ks
  induction ks with
  | nil => intro M _; rfl
  | cons k ks ih =>
    intro M h
    rw [elimRows, if_neg (not_not_intro (h k (by simp)))]
    exact ih M fun k' hk' => h k' (by simp [hk'])

theorem elimRows_entries {c : ℕ} (i j : ℕ) : ∀ (ks : List ℕ) (M : Mat),
    (∀ r ∈ M, r.length = c) → ks.Nodup → i ∉ ks → i < M.length →
    (∀ k ∈ ks, k < M.length) →
    ((elimRows i j M ks).length = M.length ∧
     (∀ r ∈ elimRows i j M ks, r.length = c) ∧
     ∀ r c', entry (elimRows i j M ks) r c' =
       if r ∈ ks then entry M r c' - entry M r j * entry M i c' else entry M r c') := by
  intro ks
  induction ks with
  | nil =>
    intro M hrect _ _ _ _
    refine ⟨rfl, hrect, fun r c' => ?_⟩
    rw [if_neg (List.not_mem_nil r)]
    rfl
  | cons k ks ih =>
    intro M hrect hnd hni hi hks
    obtain ⟨hknks, hndk⟩ := List.nodup_cons.mp hnd
    have hik : i ≠ k := fun hh => hni (by simp [hh])
    have hink : i ∉ ks := fun hh => hni (by simp [hh])
    have hk : k < M.length := hks k (by simp)
    rw [elimRows]
    by_cases hz : entry M k j = 0
    · rw [if_neg (not_not_intro hz)]
      obtain ⟨hlen, hrect', hent⟩ := ih M hrect hndk hink hi fun k' hk' => hks k' (by simp [hk'])
      refine ⟨hlen, hrect', ?_⟩
      intro r c'
      rw [hent r c']
      by_cases hrk : r = k
      · subst hrk
        rw [if_neg (fun hh => hknks hh), if_pos (by simp), hz]
        ring
      · by_cases hrks : r ∈ ks
        · rw [if_pos hrks, if_pos (by simp [hrks])]
        · rw [if_neg hrks, if_neg (by simp [hrk, hrks])]
    · rw [if_pos hz]
      have hlenN : (replaceF M k i (-entry M k j)).length = M.length := length_replaceF M k i _
      have hrectN : ∀ r ∈ replaceF M k i (-entry M k j), r.length = c :=
        rect_replaceF hrect hk hi _
      have hentN : ∀ r c', entry (replaceF M k i (-entry M k j)) r c' =
          if r = k then entry M k c' - entry M k j * entry M i c' else entry M r c' := by
        intro r c'
        rw [entry_replaceF hrect hk hi _ r c']
        by_cases hrk : r = k
        · rw [if_pos hrk, if_pos hrk]
          ring
        · rw [if_neg hrk, if_neg hrk]
      obtain ⟨hlen, hrect', hent⟩ := ih (replaceF M k i (-entry M k j)) hrectN hndk hink
        (by rw [hlenN]; exact hi) fun k' hk' => by rw [hlenN]; exact hks k' (by simp [hk'])
      refine ⟨by rw [hlen, hlenN], hrect', ?_⟩
      intro r c'
      rw [hent r c']
      by_cases hrks : r ∈ ks
      · have hrk : r ≠ k := fun hh => hknks (hh ▸ hrks)
        rw [if_pos hrks, hentN r c', if_neg hrk, hentN r j, if_neg hrk, hentN i c',
          if_neg hik, if_pos (by simp [hrks])]
      · by_cases hrk : r = k
        · subst hrk
          rw [if_neg hrks, hentN r c', if_pos rfl, if_pos (by simp)]
        · rw [if_neg hrks, hentN r c', if_neg hrk, if_neg (by simp [hrk, hrks])]

theorem findNZ_none (M : Mat) (j : ℕ) : ∀ ks : List ℕ,
    (∀ k ∈ ks, entry M k j = 0) → findNZ M j ks = none := by
  intro ks
  induction ks with
  | nil => intro _; rfl
  | cons k ks ih =>
    intro h
    rw [findNZ, if_neg (not_not_intro (h k (by simp)))]
    exact ih fun k' hk' => h k' (by simp [hk'])

theorem findNZ_some (M : Mat) (j : ℕ) : ∀ ks k, findNZ M j ks = some k →
    k ∈ ks ∧ entry M k j ≠ 0 := by
  intro ks
  induction ks with
  | nil => intro k h; cases h
  | cons a ks ih =>
    intro k h
    rw [findNZ] at h
    by_cases hz : entry M a j ≠ 0
    · rw [if_pos hz] at h
      cases h
      exact ⟨by simp, hz⟩
    · rw [if_neg hz] at h
      obtain ⟨hm, hnz⟩ := ih k h
      exact ⟨by simp [hm], hnz⟩

theorem findPivCol_none (M : Mat) (i : ℕ) : ∀ js : List ℕ,
    (∀ j ∈ js, entry M i j = 0) → findPivCol M i js = none := by
  intro js
  induction js with
  | nil => intro _; rfl
  | cons j js ih =>
    intro h
    rw [findPivCol, if_neg (not_not_intro (h j (by simp)))]
    exact ih fun j' hj' => h j' (by simp [hj'])

theorem findPivCol_range' (M : Mat) (i : ℕ) : ∀ (cnt s t : ℕ), s ≤ t → t < s + cnt →
    (∀ j, s ≤ j → j < t → entry M i j = 0) → entry M i t ≠ 0 →
    findPivCol M i (List.range' s cnt) = some t := by
  intro cnt
  induction cnt with
  | zero => intro s t h1 h2 _ _; omega
  | succ c' ih =>
    intro s t h1 h2 hz hnz
    rw [List.range'_succ, findPivCol]
    by_cases hst : s = t
    · rw [if_pos (by rw [hst]; exact hnz)]
      rw [hst]
    · rw [if_neg (not_not_intro (hz s le_rfl (by omega)))]
      exact ih (s + 1) t (by omega) (by omega) (fun j hj1 hj2 => hz j (by omega) hj2) hnz

theorem lastNZscan_spec (c : ℕ) (M : Mat) : ∀ n : ℕ,
    (-1 ≤ lastNZscan c M n ∧ lastNZscan c M n < (n : ℤ)) ∧
    (∀ r : ℕ, lastNZscan c M n < (r : ℤ) → r < n → isZeroRow c M r = true) := by
  intro n
  induction n with
  | zero =>
    rw [show lastNZscan c M 0 = -1 from rfl]
    refine ⟨⟨le_refl _, by norm_num⟩, ?_⟩
    intro r _ h2
    omega
  | succ n ih =>
    rw [lastNZscan]
    by_cases hz : isZeroRow c M n = true
    · rw [if_pos hz]
      refine ⟨⟨ih.1.1, by have := ih.1.2; omega⟩, ?_⟩
      intro r h1 h2
      rcases Nat.lt_succ_iff_lt_or_eq.mp h2 with h2' | rfl
      · exact ih.2 r h1 h2'
      · exact hz
    · rw [if_neg hz]
      refine ⟨⟨by omega, by omega⟩, ?_⟩
      intro r h1 h2
      omega

theorem lastNZscan_rref {M : Mat} {c rk : ℕ} {p : ℕ → ℕ} (h : RREFShape M c rk p) :
    ∀ n, rk ≤ n → n ≤ M.length → lastNZscan c M n = (rk : ℤ) - 1 := by
  intro n
  induction n with
  | zero =>
    intro h1 _
    rw [lastNZscan, Nat.le_zero.mp h1]
    norm_num
  | succ n ih =>
    intro h1 h2
    rw [lastNZscan]
    rcases Nat.lt_or_ge n rk with hlt | hge
    · have hfalse : isZeroRow c M n = false :=
        isZeroRow_false_of_ne (h.p_lt n hlt) (by rw [h.pivot_one n hlt]; norm_num)
      rw [hfalse]
      simp only [Bool.false_eq_true, if_false]
      omega
    · have htrue : isZeroRow c M n = true :=
        (isZeroRow_iff _ _ _).mpr fun k _ => h.bottom_zero n hge k
      rw [htrue]
      simp only [if_true]
      exact ih (by omega) (by omega)

theorem rrLoop_fix {M : Mat} {c rk : ℕ} {p : ℕ → ℕ} (h : RREFShape M c rk p) :
    ∀ (fuel i j : ℕ), i ≤ rk → (i < rk → j ≤ p i) → c ≤ fuel + j →
    rrLoop M.length c c fuel M i j ((rk : ℤ) - 1) = (M, (rk : ℤ) - 1) := by
  intro fuel
  induction fuel with
  | zero =>
    intro i j _ _ _
    rfl
  | succ f ih =>
    intro i j hi hj hfuel
    simp only [rrLoop]
    by_cases hguard : i < M.length ∧ j < c
    · rw [if_pos hguard]
      rcases Nat.lt_or_ge i rk with hir | hir
      · have hpj : j ≤ p i := hj hir
        have hiz : isZeroRow c M i = false :=
          isZeroRow_false_of_ne (h.p_lt i hir) (by rw [h.pivot_one i hir]; norm_num)
        rw [hiz]
        simp only [Bool.false_eq_true, false_and, if_false]
        rcases lt_or_eq_of_le hpj with hlt | heq
        · have hij0 : entry M i j = 0 := h.left_zero i hir j hlt
          have hsearch : findNZ M j (List.range' (i + 1)
              (((rk : ℤ) - 1 + 1 - (i + 1 : ℤ)).toNat)) = none := by
            apply findNZ_none
            intro k hk
            rw [List.mem_range'_1] at hk
            have hklt : k < rk := by omega
            have hki : i < k := by omega
            refine h.left_zero k hklt j ?_
            have := h.p_mono i k hki hklt
            omega
          rw [if_pos hij0, hsearch]
          rw [if_pos hij0]
          exact ih i (j + 1) hi (fun hh => by omega) (by omega)
        · have hij1 : entry M i j = 1 := by rw [heq]; exact h.pivot_one i hir
          have h0 : ¬ (entry M i j = 0) := by rw [hij1]; norm_num
          have h1 : ¬ (entry M i j ≠ 1) := not_not_intro hij1
          simp only [if_neg h0, if_neg h1]
          rw [elimRows_nop i j _ M (by
            intro k hk
            rw [List.mem_range'_1] at hk
            have hki : k ≠ i := by omega
            rw [heq]
            exact h.col_zero i hir k hki)]
          exact ih (i + 1) (j + 1) (by omega)
            (fun hh => by
              have := h.p_mono i (i + 1) (by omega) hh
              omega)
            (by omega)
      · have hieq : i = rk := by omega
        have hz : isZeroRow c M i = true :=
          (isZeroRow_iff _ _ _).mpr fun k _ => h.bottom_zero i (by omega) k
        rw [if_pos ⟨hz, by omega⟩]
    · rw [if_neg hguard]

theorem backLoop_fix {M : Mat} {c rk : ℕ} {p : ℕ → ℕ} (h : RREFShape M c rk p) :
    ∀ is : List ℕ, backLoop c M is = M := by
  intro is
  induction is with
  | nil => rfl
  | cons i is ih =>
    rcases Nat.lt_or_ge i rk with hir | hir
    · have hfind : findPivCol M i (List.range c) = some (p i) := by
        rw [List.range_eq_range']
        exact findPivCol_range' M i c 0 (p i) (Nat.zero_le _)
          (by have := h.p_lt i hir; omega)
          (fun j _ hj => h.left_zero i hir j hj)
          (by rw [h.pivot_one i hir]; norm_num)
      rw [backLoop, hfind]
      show backLoop c (elimRows i (p i) M (List.range i).reverse) is = M
      rw [elimRows_nop i (p i) _ M (by
        intro k hk
        rw [List.mem_reverse, List.mem_range] at hk
        exact h.col_zero i hir k (by omega))]
      exact ih
    · have hfind : findPivCol M i (List.range c) = none :=
        findPivCol_none _ _ _ (fun j _ => h.bottom_zero i hir j)
      rw [backLoop, hfind]
      exact ih

theorem row_reduce_fix {M : Mat} {c rk : ℕ} {p : ℕ → ℕ} (h : RREFShape M c rk p)
    (hm : 0 < M.length) : row_reduce M true none = M := by
  have hc : ncolsF M = c := by
    cases M with
    | nil => simp at hm
    | cons r rs => exact h.rect r (by simp)
  simp only [row_reduce, copy_eq, hc, Option.getD_none, min_self]
  rw [lastNZscan_rref h M.length h.rk_le (le_refl _)]
  rw [rrLoop_fix h c 0 0 (Nat.zero_le _) (fun _ => Nat.zero_le _) (by omega)]
  show backLoop c M (List.range ((rk : ℤ) - 1 + 1).toNat).reverse = M
  exact backLoop_fix h _

theorem entry_ge_len {M : Mat} {r : ℕ} (h : M.length ≤ r) (jj : ℕ) : entry M r jj = 0 := by
  unfold entry
  rw [getD_of_ge _ _ _ h]
  rfl

theorem findNZ_eq_none {M : Mat} {j : ℕ} : ∀ {ks : List ℕ}, findNZ M j ks = none →
    ∀ k ∈ ks, entry M k j = 0 := by
  intro ks
  induction ks with
  | nil => intro _ k hk; cases hk
  | cons a ks ih =>
    intro h k hk
    rw [findNZ] at h
    by_cases ha : entry M a j ≠ 0
    · rw [if_pos ha] at h
      cases h
    · rw [if_neg ha] at h
      rcases List.mem_cons.mp hk with rfl | hk'
      · exact not_not.mp ha
      · exact ih h k hk'

theorem exit_ech {M : Mat} {m c i j : ℕ} {lnz : ℤ} {p : ℕ → ℕ}
    (h : FwdInv M m c i j lnz p)
    (hex : c ≤ j ∨ m ≤ i ∨ (isZeroRow c M i = true ∧ lnz ≤ (i : ℤ))) :
    EchOut M m c i p lnz := by
  refine ⟨h.len, h.rect, ?_, ?_, h.p_mono, h.pivot_one, h.left_zero, h.below_zero, ?_, h.i_le, h.lnz_lt⟩
  · have := h.i_le
    have := h.lnz_lt
    omega
  · intro r hr
    exact lt_of_lt_of_le (h.p_lt r hr) h.j_le
  · intro r hr jj
    rcases lt_or_ge lnz (r : ℤ) with hbr | hbr
    · exact h.zbelow r hbr jj
    · rcases hex with hex | hex | hex
      · rcases lt_or_ge jj c with hjc | hjc
        · exact h.zblock r hr hbr jj (by omega)
        · exact entry_rect_ge h.rect r hjc
      · exact entry_ge_len (by rw [h.len]; omega) jj
      · have hri : r = i := by omega
        subst hri
        exact isZeroRow_entries h.rect hex.1 jj

theorem swap_zero_inv {M : Mat} {m c i j : ℕ} {lnz : ℤ} {p : ℕ → ℕ}
    (h : FwdInv M m c i j lnz p) (hz : isZeroRow c M i = true) (hil : (i : ℤ) < lnz) :
    FwdInv (swapF M i lnz.toNat) m c i j (lnz - 1) p := by
  have hlm : lnz < (m : ℤ) := h.lnz_lt
  have him : i < M.length := by rw [h.len]; omega
  have hlnm : lnz.toNat < M.length := by rw [h.len]; omega
  refine ⟨by rw [length_swapF, h.len], rect_swapF h.rect him hlnm, by omega, by omega,
    by omega, h.j_le, ?_, ?_, h.p_lt, h.p_mono, ?_, ?_, ?_⟩
  · intro r hr jj
    rw [entry_swapF him hlnm]
    by_cases h1 : r = lnz.toNat
    · rw [if_pos h1]
      exact isZeroRow_entries h.rect hz jj
    · rw [if_neg h1, if_neg (by omega : ¬ r = i)]
      exact h.zbelow r (by omega) jj
  · intro r hri hr jj hjj
    rw [entry_swapF him hlnm, if_neg (by omega : ¬ r = lnz.toNat)]
    by_cases h2 : r = i
    · rw [if_pos h2]
      exact h.zblock lnz.toNat (by omega) (by omega) jj hjj
    · rw [if_neg h2]
      exact h.zblock r hri (by omega) jj hjj
  · intro r hr
    rw [entry_swapF him hlnm, if_neg (by omega : ¬ r = lnz.toNat),
      if_neg (by omega : ¬ r = i)]
    exact h.pivot_one r hr
  · intro r hr jj hjj
    rw [entry_swapF him hlnm, if_neg (by omega : ¬ r = lnz.toNat),
      if_neg (by omega : ¬ r = i)]
    exact h.left_zero r hr jj hjj
  · intro r hr r' hrr
    rw [entry_swapF him hlnm]
    by_cases h1 : r' = lnz.toNat
    · rw [if_pos h1]
      exact h.below_zero r hr i hr
    · rw [if_neg h1]
      by_cases h2 : r' = i
      · rw [if_pos h2]
        exact h.below_zero r hr lnz.toNat (by omega)
      · rw [if_neg h2]
        exact h.below_zero r hr r' hrr

theorem swap_piv_inv {M : Mat} {m c i j k : ℕ} {lnz : ℤ} {p : ℕ → ℕ}
    (h : FwdInv M m c i j lnz p) (hik : i < k) (hkl : (k : ℤ) ≤ lnz) :
    FwdInv (swapF M i k) m c i j lnz p := by
  have hlm : lnz < (m : ℤ) := h.lnz_lt
  have hkm : k < M.length := by rw [h.len]; omega
  have him : i < M.length := by rw [h.len]; omega
  refine ⟨by rw [length_swapF, h.len], rect_swapF h.rect him hkm, h.lnz_lb, h.lnz_lt,
    h.i_le, h.j_le, ?_, ?_, h.p_lt, h.p_mono, ?_, ?_, ?_⟩
  · intro r hr jj
    rw [entry_swapF him hkm, if_neg (by omega : ¬ r = k), if_neg (by omega : ¬ r = i)]
    exact h.zbelow r hr jj
  · intro r hri hr jj hjj
    rw [entry_swapF him hkm]
    by_cases h1 : r = k
    · rw [if_pos h1]
      exact h.zblock i (le_refl i) (by omega) jj hjj
    · rw [if_neg h1]
      by_cases h2 : r = i
      · rw [if_pos h2]
        exact h.zblock k (by omega) hkl jj hjj
      · rw [if_neg h2]
        exact h.zblock r hri hr jj hjj
  · intro r hr
    rw [entry_swapF him hkm, if_neg (by omega : ¬ r = k), if_neg (by omega : ¬ r = i)]
    exact h.pivot_one r hr
  · intro r hr jj hjj
    rw [entry_swapF him hkm, if_neg (by omega : ¬ r = k), if_neg (by omega : ¬ r = i)]
    exact h.left_zero r hr jj hjj
  · intro r hr r' hrr
    rw [entry_swapF him hkm]
    by_cases h1 : r' = k
    · rw [if_pos h1]
      exact h.below_zero r hr i hr
    · rw [if_neg h1]
      by_cases h2 : r' = i
      · rw [if_pos h2]
        exact h.below_zero r hr k (by omega)
      · rw [if_neg h2]
        exact h.below_zero r hr r' hrr

theorem advance_j_inv {M : Mat} {m c i j : ℕ} {lnz : ℤ} {p : ℕ → ℕ}
    (h : FwdInv M m c i j lnz p) (hjc : j < c) (h0 : entry M i j = 0)
    (hall : ∀ r : ℕ, i < r → (r : ℤ) ≤ lnz → entry M r j = 0) :
    FwdInv M m c i (j + 1) lnz p := by
  refine ⟨h.len, h.rect, h.lnz_lb, h.lnz_lt, h.i_le, by omega, h.zbelow, ?_, ?_,
    h.p_mono, h.pivot_one, h.left_zero, h.below_zero⟩
  · intro r hri hr jj hjj
    rcases lt_or_ge jj j with hlt | hge
    · exact h.zblock r hri hr jj hlt
    · have hjje : jj = j := by omega
      subst hjje
      rcases Nat.eq_or_lt_of_le hri with rfl | hlt'
      · exact h0
      · exact hall r hlt' hr
  · intro r hr
    exact Nat.lt_succ_of_lt (h.p_lt r hr)

theorem pivot_step_inv {M : Mat} {m c i j : ℕ} {lnz : ℤ} {p : ℕ → ℕ}
    (h : FwdInv M m c i j lnz p) (hjc : j < c) (ha : entry M i j ≠ 0) :
    FwdInv (elimRows i j (if entry M i j ≠ 1 then scaleF M i (1 / entry M i j) else M)
        (List.range' (i + 1) ((lnz + 1 - (i + 1 : ℤ)).toNat))) m c (i + 1) (j + 1) lnz
      (fun r => if r = i then j else p r) := by
  have hlm : lnz < (m : ℤ) := h.lnz_lt
  have hil : (i : ℤ) ≤ lnz := by
    by_contra hc
    exact ha (h.zbelow i (by omega) j)
  have him : i < M.length := by rw [h.len]; omega
  have hM3 : ∀ r c', entry (if entry M i j ≠ 1 then scaleF M i (1 / entry M i j) else M) r c' =
      if r = i then entry M i c' * (1 / entry M i j) else entry M r c' := by
    intro r c'
    by_cases h1 : entry M i j ≠ 1
    · rw [if_pos h1]
      exact entry_scaleF him (1 / entry M i j) r c'
    · have ha1 : entry M i j = 1 := not_not.mp h1
      rw [if_neg h1, ha1]
      by_cases hri : r = i
      · subst hri
        rw [if_pos rfl]
        ring
      · rw [if_neg hri]
  have len3 : (if entry M i j ≠ 1 then scaleF M i (1 / entry M i j) else M).length =
      M.length := by
    by_cases h1 : entry M i j ≠ 1
    · rw [if_pos h1, length_scaleF]
    · rw [if_neg h1]
  have rect3 : ∀ r ∈ (if entry M i j ≠ 1 then scaleF M i (1 / entry M i j) else M),
      r.length = c := by
    by_cases h1 : entry M i j ≠ 1
    · rw [if_pos h1]
      exact rect_scaleF h.rect him _
    · rw [if_neg h1]
      exact h.rect
  have hmem : ∀ k : ℕ, k ∈ List.range' (i + 1) ((lnz + 1 - (i + 1 : ℤ)).toNat) ↔
      (i + 1 ≤ k ∧ (k : ℤ) ≤ lnz) := by
    intro k
    rw [List.mem_range'_1]
    omega
  obtain ⟨len4, rect4, hent4⟩ :=
    elimRows_entries i j (List.range' (i + 1) ((lnz + 1 - (i + 1 : ℤ)).toNat))
      (if entry M i j ≠ 1 then scaleF M i (1 / entry M i j) else M) rect3
      (List.nodup_range' _ _)
      (by rw [hmem]; omega)
      (by rw [len3]; exact him)
      (by
        intro k hk
        rw [hmem] at hk
        rw [len3, h.len]
        omega)
  have e3_piv : entry (if entry M i j ≠ 1 then scaleF M i (1 / entry M i j) else M) i j = 1 := by
    rw [hM3, if_pos rfl, mul_one_div, div_self ha]
  refine ⟨by rw [len4, len3, h.len], rect4, h.lnz_lb, h.lnz_lt, by omega, by omega,
    ?_, ?_, ?_, ?_, ?_, ?_, ?_⟩
  · -- zbelow
    intro r hr jj
    rw [hent4, if_neg (by rw [hmem]; omega), hM3, if_neg (by omega : ¬ r = i)]
    exact h.zbelow r hr jj
  · -- zblock
    intro r hri hr jj hjj
    rw [hent4, if_pos (by rw [hmem]; omega)]
    rcases lt_or_ge jj j with hlt | hge
    · rw [hM3 r jj, hM3 r j, hM3 i jj, if_pos rfl,
        if_neg (by omega : ¬ r = i), if_neg (by omega : ¬ r = i),
        h.zblock i (le_refl i) hil jj hlt, h.zblock r (by omega) hr jj hlt]
      ring
    · have hjje : jj = j := by omega
      subst hjje
      rw [e3_piv, mul_one, sub_self]
  · -- p_lt
    intro r hr
    show (if r = i then j else p r) < j + 1
    by_cases hri : r = i
    · rw [if_pos hri]
      omega
    · rw [if_neg hri]
      have := h.p_lt r (by omega)
      omega
  · -- p_mono
    intro r s hrs hs
    show (if r = i then j else p r) < (if s = i then j else p s)
    by_cases hsi : s = i
    · rw [if_pos hsi, if_neg (by omega : ¬ r = i)]
      exact h.p_lt r (by omega)
    · rw [if_neg hsi, if_neg (by omega : ¬ r = i)]
      exact h.p_mono r s hrs (by omega)
  · -- pivot_one
    intro r hr
    show entry _ r (if r = i then j else p r) = 1
    by_cases hri : r = i
    · subst hri
      rw [if_pos rfl, hent4, if_neg (by rw [hmem]; omega)]
      exact e3_piv
    · rw [if_neg hri, hent4, if_neg (by rw [hmem]; omega), hM3, if_neg hri]
      exact h.pivot_one r (by omega)
  · -- left_zero
    intro r hr jj hjj
    by_cases hri : r = i
    · rw [show (if r = i then j else p r) = j from if_pos hri] at hjj
      rw [hent4, if_neg (by rw [hmem]; omega), hM3 r jj, if_pos hri,
        h.zblock i (le_refl i) hil jj hjj]
      ring
    · rw [show (if r = i then j else p r) = p r from if_neg hri] at hjj
      rw [hent4, if_neg (by rw [hmem]; omega), hM3, if_neg hri]
      exact h.left_zero r (by omega) jj hjj
  · -- below_zero
    intro r hr r' hrr
    by_cases hri : r = i
    · rw [show (if r = i then j else p r) = j from if_pos hri]
      rw [hent4]
      by_cases hks : r' ∈ List.range' (i + 1) ((lnz + 1 - (i + 1 : ℤ)).toNat)
      · rw [if_pos hks, e3_piv, mul_one, sub_self]
      · rw [if_neg hks]
        have hr'l : lnz < (r' : ℤ) := by
          rw [hmem] at hks
          omega
        rw [hM3, if_neg (by omega : ¬ r' = i)]
        exact h.zbelow r' hr'l j
    · rw [show (if r = i then j else p r) = p r from if_neg hri]
      have hzi : entry M i (p r) = 0 := h.below_zero r (by omega) i (by omega)
      rw [hent4]
      by_cases hks : r' ∈ List.range' (i + 1) ((lnz + 1 - (i + 1 : ℤ)).toNat)
      · have hr'i : ¬ r' = i := by
          rw [hmem] at hks
          omega
        rw [if_pos hks, hM3 r' (p r), if_neg hr'i, hM3 r' j, if_neg hr'i,
          hM3 i (p r), if_pos rfl, hzi, h.below_zero r (by omega) r' hrr]
        ring
      · rw [if_neg hks, hM3 r' (p r)]
        by_cases hr'i : r' = i
        · rw [if_pos hr'i, hzi]
          ring
        · rw [if_neg hr'i]
          exact h.below_zero r (by omega) r' hrr

theorem rrLoop_ech {m c : ℕ} : ∀ (fuel : ℕ) (M : Mat) (i j : ℕ) (lnz : ℤ) (p : ℕ → ℕ),
    FwdInv M m c i j lnz p → c ≤ fuel + j →
    ∃ rk p', EchOut (rrLoop m c c fuel M i j lnz).1 m c rk p'
      (rrLoop m c c fuel M i j lnz).2 := by
  intro fuel
  induction fuel with
  | zero =>
    intro M i j lnz p hinv hfuel
    exact ⟨i, p, exit_ech hinv (Or.inl (by omega))⟩
  | succ f ih =>
    intro M i j lnz p hinv hfuel
    by_cases hguard : i < m ∧ j < c
    · obtain ⟨him, hjc⟩ := hguard
      by_cases hbreak : isZeroRow c M i = true ∧ lnz ≤ (i : ℤ)
      · have hres : rrLoop m c c (f + 1) M i j lnz = (M, lnz) := by
          simp only [rrLoop]
          rw [if_pos ⟨him, hjc⟩, if_pos hbreak]
        rw [hres]
        exact ⟨i, p, exit_ech hinv (Or.inr (Or.inr hbreak))⟩
      · have hstep : ∀ (M1 : Mat) (lnz1 : ℤ) (R : Mat × ℤ), FwdInv M1 m c i j lnz1 p →
            R = (let mat2 :=
                  if entry M1 i j = 0 then
                    match findNZ M1 j (List.range' (i + 1) (lnz1 + 1 - (i + 1 : ℤ)).toNat) with
                    | some k => swapF M1 i k
                    | none => M1
                  else M1
                if entry mat2 i j = 0 then rrLoop m c c f mat2 i (j + 1) lnz1
                else rrLoop m c c f
                  (elimRows i j
                    (if entry mat2 i j ≠ 1 then scaleF mat2 i (1 / entry mat2 i j) else mat2)
                    (List.range' (i + 1) (lnz1 + 1 - (i + 1 : ℤ)).toNat))
                  (i + 1) (j + 1) lnz1) →
            ∃ rk p', EchOut R.1 m c rk p' R.2 := by
          intro M1 lnz1 R hinv1 hR
          by_cases h20 : entry M1 i j = 0
          · rcases hfind : findNZ M1 j (List.range' (i + 1) (lnz1 + 1 - (i + 1 : ℤ)).toNat)
              with _ | k
            · have hR2 : R = rrLoop m c c f M1 i (j + 1) lnz1 := by
                rw [hR]
                simp only [if_pos h20, hfind]
              rw [hR2]
              have hall : ∀ r : ℕ, i < r → (r : ℤ) ≤ lnz1 → entry M1 r j = 0 := by
                intro r hir hrl
                exact findNZ_eq_none hfind r (by rw [List.mem_range'_1]; omega)
              exact ih M1 i (j + 1) lnz1 p (advance_j_inv hinv1 hjc h20 hall) (by omega)
            · obtain ⟨hkmem, hknz⟩ := findNZ_some M1 j _ k hfind
              rw [List.mem_range'_1] at hkmem
              have hik : i < k := by omega
              have hkl : (k : ℤ) ≤ lnz1 := by omega
              have hinv2 : FwdInv (swapF M1 i k) m c i j lnz1 p :=
                swap_piv_inv hinv1 hik hkl
              have him1 : i < M1.length := by rw [hinv1.len]; exact him
              have hkm1 : k < M1.length := by
                rw [hinv1.len]
                have := hinv1.lnz_lt
                omega
              have hne : ¬ entry (swapF M1 i k) i j = 0 := by
                rw [entry_swapF him1 hkm1, if_neg (by omega : ¬ i = k), if_pos rfl]
                exact hknz
              have hR2 : R = rrLoop m c c f
                  (elimRows i j
                    (if entry (swapF M1 i k) i j ≠ 1 then
                      scaleF (swapF M1 i k) i (1 / entry (swapF M1 i k) i j)
                    else swapF M1 i k)
                    (List.range' (i + 1) (lnz1 + 1 - (i + 1 : ℤ)).toNat))
                  (i + 1) (j + 1) lnz1 := by
                rw [hR]
                simp only [if_pos h20, hfind, if_neg hne]
              rw [hR2]
              exact ih _ (i + 1) (j + 1) lnz1 _ (pivot_step_inv hinv2 hjc hne) (by omega)
          · have hR2 : R = rrLoop m c c f
                (elimRows i j
                  (if entry M1 i j ≠ 1 then scaleF M1 i (1 / entry M1 i j) else M1)
                  (List.range' (i + 1) (lnz1 + 1 - (i + 1 : ℤ)).toNat))
                (i + 1) (j + 1) lnz1 := by
              rw [hR]
              simp only [if_neg h20]
            rw [hR2]
            exact ih _ (i + 1) (j + 1) lnz1 _ (pivot_step_inv hinv1 hjc h20) (by omega)
        by_cases hz : isZeroRow c M i = true
        · have hil : (i : ℤ) < lnz := by
            have hnle : ¬ lnz ≤ (i : ℤ) := fun hle => hbreak ⟨hz, hle⟩
            omega
          have hres := hstep (swapF M i lnz.toNat) (lnz - 1)
            (rrLoop m c c (f + 1) M i j lnz) (swap_zero_inv hinv hz hil) (by
              simp only [rrLoop]
              rw [if_pos ⟨him, hjc⟩, if_neg hbreak, if_pos hz])
          exact hres
        · have hres := hstep M lnz (rrLoop m c c (f + 1) M i j lnz) hinv (by
            simp only [rrLoop]
            rw [if_pos ⟨him, hjc⟩, if_neg hbreak, if_neg hz])
          exact hres
    · have hres : rrLoop m c c (f + 1) M i j lnz = (M, lnz) := by
        simp only [rrLoop]
        rw [if_neg hguard]
      rw [hres]
      refine ⟨i, p, exit_ech hinv ?_⟩
      rcases not_and_or.mp hguard with h1 | h1
      · right; left
        omega
      · left
        omega

theorem back_step_inv {M : Mat} {m c rk t : ℕ} {p : ℕ → ℕ}
    (h : BackInv M m c rk p (t + 1)) (htr : t < rk) :
    BackInv (elimRows t (p t) M (List.range t).reverse) m c rk p t := by
  have hmem : ∀ x : ℕ, x ∈ (List.range t).reverse ↔ x < t := by
    intro x
    rw [List.mem_reverse, List.mem_range]
  have htM : t < M.length := by
    rw [h.len]
    have := h.rk_le
    omega
  obtain ⟨len4, rect4, hent4⟩ :=
    elimRows_entries t (p t) (List.range t).reverse M h.rect
      (List.nodup_reverse.mpr (List.nodup_range t))
      (by rw [hmem]; omega)
      htM
      (by
        intro k hk
        rw [hmem] at hk
        omega)
  refine ⟨by rw [len4]; exact h.len, rect4, h.rk_le, h.p_lt, h.p_mono, ?_, ?_, ?_, ?_, ?_⟩
  · -- pivot_one
    intro r hr
    rw [hent4]
    by_cases hks : r ∈ (List.range t).reverse
    · rw [if_pos hks, h.below_zero r hr t (by rw [hmem] at hks; omega), mul_zero, sub_zero]
      exact h.pivot_one r hr
    · rw [if_neg hks]
      exact h.pivot_one r hr
  · -- left_zero
    intro r hr jj hjj
    rw [hent4]
    by_cases hks : r ∈ (List.range t).reverse
    · have hrt : r < t := (hmem r).mp hks
      rw [if_pos hks, h.left_zero r hr jj hjj,
        h.left_zero t htr jj (lt_trans hjj (h.p_mono r t hrt htr))]
      ring
    · rw [if_neg hks]
      exact h.left_zero r hr jj hjj
  · -- below_zero
    intro r hr r' hrr
    rw [hent4]
    by_cases hks : r' ∈ (List.range t).reverse
    · have hr't : r' < t := (hmem r').mp hks
      rw [if_pos hks, h.below_zero r hr r' hrr, h.below_zero r hr t (by omega)]
      ring
    · rw [if_neg hks]
      exact h.below_zero r hr r' hrr
  · -- bottom
    intro r hr jj
    rw [hent4, if_neg (by rw [hmem]; have := h.rk_le; omega)]
    exact h.bottom r hr jj
  · -- cleared
    intro r hr1 hr2 r' hne
    rw [hent4]
    rcases Nat.eq_or_lt_of_le hr1 with rfl | hgt
    · by_cases hks : r' ∈ (List.range t).reverse
      · rw [if_pos hks, h.pivot_one t hr2, mul_one, sub_self]
      · rw [if_neg hks]
        have hr'r : t < r' := by
          rw [hmem] at hks
          omega
        exact h.below_zero t hr2 r' hr'r
    · by_cases hks : r' ∈ (List.range t).reverse
      · have hr't : r' < t := (hmem r').mp hks
        rw [if_pos hks, h.cleared r (by omega) hr2 r' hne,
          h.cleared r (by omega) hr2 t (by omega)]
        ring
      · rw [if_neg hks]
        exact h.cleared r (by omega) hr2 r' hne

theorem backLoop_steps {m c rk : ℕ} {p : ℕ → ℕ} :
    ∀ (n : ℕ) (M : Mat), BackInv M m c rk p n →
    BackInv (backLoop c M (List.range n).reverse) m c rk p 0 := by
  intro n
  induction n with
  | zero =>
    intro M h
    exact h
  | succ t ihn =>
    intro M h
    have hlist : (List.range (t + 1)).reverse = t :: (List.range t).reverse := by
      rw [List.range_succ, List.reverse_append, List.reverse_singleton, List.singleton_append]
    rw [hlist]
    rcases Nat.lt_or_ge t rk with htr | htr
    · have hfind : findPivCol M t (List.range c) = some (p t) := by
        rw [List.range_eq_range']
        exact findPivCol_range' M t c 0 (p t) (Nat.zero_le _)
          (by have := h.p_lt t htr; omega)
          (fun jj _ hjj => h.left_zero t htr jj hjj)
          (by rw [h.pivot_one t htr]; norm_num)
      rw [backLoop, hfind]
      exact ihn _ (back_step_inv h htr)
    · have hfind : findPivCol M t (List.range c) = none :=
        findPivCol_none _ _ _ (fun jj _ => h.bottom t htr jj)
      rw [backLoop, hfind]
      refine ihn M ⟨h.len, h.rect, h.rk_le, h.p_lt, h.p_mono, h.pivot_one, h.left_zero,
        h.below_zero, h.bottom, ?_⟩
      intro r hr1 hr2 r' hne
      exact h.cleared r (by omega) hr2 r' hne

theorem ech_to_backInv {M : Mat} {m c rk : ℕ} {p : ℕ → ℕ} {lnz : ℤ}
    (h : EchOut M m c rk p lnz) {n : ℕ} (hn : rk ≤ n) : BackInv M m c rk p n :=
  ⟨h.len, h.rect, h.rk_le, h.p_lt, h.p_mono, h.pivot_one, h.left_zero, h.below_zero,
   h.bottom, fun _ h1 h2 _ _ => absurd h2 (by omega)⟩

theorem backInv_rref {M : Mat} {m c rk : ℕ} {p : ℕ → ℕ} (h : BackInv M m c rk p 0) :
    RREFShape M c rk p :=
  ⟨by rw [h.len]; exact h.rk_le, h.rect, h.p_lt, h.p_mono, h.pivot_one, h.left_zero,
   fun r hr r' hne => h.cleared r (Nat.zero_le r) hr r' hne, h.bottom⟩

theorem row_reduce_rref {M : Mat} {m c : ℕ} (hM : isMat M m c) (hm : 0 < m) :
    ∃ rk p, RREFShape (row_reduce M true none) c rk p ∧
      (row_reduce M true none).length = m := by
  have hlen : M.length = m := hM.1
  have hrect : ∀ r ∈ M, r.length = c := hM.2
  have hc : ncolsF M = c := by
    cases M with
    | nil =>
      exfalso
      simp at hlen
      omega
    | cons r rs => exact hrect r (by simp)
  have hspec := lastNZscan_spec c M m
  have hinv0 : FwdInv M m c 0 0 (lastNZscan c M m) (fun _ => 0) := by
    refine ⟨hlen, hrect, hspec.1.1, hspec.1.2, by have := hspec.1.1; omega,
      Nat.zero_le c, ?_, ?_, ?_, ?_, ?_, ?_, ?_⟩
    · intro r hr jj
      rcases lt_or_ge r M.length with hrm | hrm
      · exact isZeroRow_entries hrect (hspec.2 r hr (by omega)) jj
      · exact entry_ge_len hrm jj
    · intro r _ _ jj hjj
      exact absurd hjj (Nat.not_lt_zero jj)
    · intro r hr
      exact absurd hr (Nat.not_lt_zero r)
    · intro r s _ hs
      exact absurd hs (Nat.not_lt_zero s)
    · intro r hr
      exact absurd hr (Nat.not_lt_zero r)
    · intro r hr _ _
      exact absurd hr (Nat.not_lt_zero r)
    · intro r hr _ _
      exact absurd hr (Nat.not_lt_zero r)
  obtain ⟨rk, p', hech⟩ := rrLoop_ech c M 0 0 (lastNZscan c M m) (fun _ => 0) hinv0 (by omega)
  have hback := backLoop_steps (((rrLoop m c c c M 0 0 (lastNZscan c M m)).2 + 1).toNat)
    (rrLoop m c c c M 0 0 (lastNZscan c M m)).1
    (ech_to_backInv hech (by have := hech.lnz_ge; omega))
  have hrr : row_reduce M true none =
      backLoop c (rrLoop m c c c M 0 0 (lastNZscan c M m)).1
        (List.range ((rrLoop m c c c M 0 0 (lastNZscan c M m)).2 + 1).toNat).reverse := by
    simp only [row_reduce, copy_eq, hc, hlen, Option.getD_none, min_self]
    rfl
  rw [hrr]
  exact ⟨rk, p', backInv_rref hback, hback.len⟩

/-- C7: for every (nonempty) matrix `A`, applying `row_reduce` with `rref=True` to the
    result of `row_reduce(A, rref=True)` returns exactly `row_reduce(A, rref=True)`:
    reduced row echelon form is a fixed point of row reduction.  Proved by showing
    the forward pass establishes echelon form, the backward pass clears the pivot
    columns (`row_reduce_rref`), and a matrix in RREF is returned unchanged by the
    whole algorithm (`row_reduce_fix`). -/
theorem claim_C7 {A : Mat} {m c : ℕ} (hA : isMat A m c) (hm : 0 < m) :
    row_reduce (row_reduce A true none) true none = row_reduce A true none := by
  obtain ⟨rk, p, hshape, hlen⟩ := row_reduce_rref hA hm
  exact row_reduce_fix hshape (by rw [hlen]; exact hm)

/-- Witness for C7 at the concrete matrix `[[1]]`. -/
theorem claim_C7_witness :
    isMat [[(1 : ℚ)]] 1 1 ∧ 0 < 1 ∧
    row_reduce (row_reduce [[(1 : ℚ)]] true none) true none =
      row_reduce [[(1 : ℚ)]] true none := by
  have hA : isMat [[(1 : ℚ)]] 1 1 := by
    constructor
    · rfl
    · intro r hr
      rw [List.mem_singleton] at hr
      subst hr
      rfl
  exact ⟨hA, by norm_num, claim_C7 hA (by norm_num)⟩

end PyQuiz
